import Mathlib

set_option maxHeartbeats 1000000

/-!
Verification development for tex-thmdep: a tool that reads dependency
markers from TeX sources, builds a dependency graph, computes BFS
distances from root theorems, filters nodes by a distance threshold and
serializes the graph as TikZ code.

The definitions below are a shallow embedding of the Python source
(tex-thmdep.py).  Python dicts are modelled as insertion-ordered
association lists, `None` as `Option.none`, and the functions `extract`,
`bfs`, `process` and `output` are translated clause by clause.
-/

/-- A label identifying a theorem-like entity (an opaque string). -/
abbrev Label := String

/-- Mirror of `class VertexInfo` (slots `adj`, `radj`, `dist`, `visited`). -/
structure VertexInfo where
  adj : List Label
  radj : List Label
  dist : Option Nat
  visited : Bool
  deriving DecidableEq, Repr

/-- `VertexInfo.__init__`: empty adjacency, unset distance, unvisited. -/
def VertexInfo.init : VertexInfo := ⟨[], [], none, false⟩

/-- The `nodes` dict (`defaultdict(VertexInfo)`), modelled as an
insertion-ordered association list, as Python dicts preserve insertion
order. -/
abbrev NodeMap := List (Label × VertexInfo)

/-- Dictionary lookup: first entry with the given key. -/
def lookupNode : NodeMap → Label → Option VertexInfo
  | [], _ => none
  | (k, v) :: t, u => if k = u then some v else lookupNode t u

/-- Dictionary membership test (`v in nodes`). -/
def memNode (m : NodeMap) (u : Label) : Bool :=
  (lookupNode m u).isSome

/-- Dictionary assignment `nodes[u] = inf`: overwrite in place if the key is
present, otherwise append at the end (Python dicts keep insertion order). -/
def setNode : NodeMap → Label → VertexInfo → NodeMap
  | [], u, inf => [(u, inf)]
  | (k, v) :: t, u, inf => if k = u then (k, inf) :: t else (k, v) :: setNode t u inf

/-- `defaultdict` read `nodes[u]`: return the stored info, or insert a fresh
`VertexInfo.init` at the end and return it. -/
def getOrInsert (m : NodeMap) (u : Label) : VertexInfo × NodeMap :=
  match lookupNode m u with
  | some inf => (inf, m)
  | none => (VertexInfo.init, m ++ [(u, VertexInfo.init)])

/-- Dictionary deletion `del nodes[u]`. -/
def eraseNode : NodeMap → Label → NodeMap
  | [], _ => []
  | (k, v) :: t, u => if k = u then eraseNode t u else (k, v) :: eraseNode t u

/-- The keys of the mapping, in insertion order. -/
def nodeKeys (m : NodeMap) : List Label := m.map (fun p => p.1)

/-- A mapping with no duplicate keys (true of every mapping the program
builds; Python dicts cannot have duplicate keys). -/
abbrev NodupKeys (m : NodeMap) : Prop := (nodeKeys m).Nodup

theorem lookupNode_append_of_none {m : NodeMap} {u : Label}
    (h : lookupNode m u = none) (l : NodeMap) :
    lookupNode (m ++ l) u = lookupNode l u := by
  induction m with
  | nil => simp
  | cons hd t ih =>
    obtain ⟨k, v⟩ := hd
    by_cases hk : k = u
    · simp [lookupNode, hk] at h
    · simp only [lookupNode, hk, if_false, List.cons_append] at h ⊢
      exact ih h

/-! ### GraphBuilder: the first loop of `process` (lines 91-97) -/

/-- One edge insertion: `nodes[u].adj.append(v); nodes[v].radj.append(u)`
with `defaultdict` creation on first access. -/
def addEdge (nodes : NodeMap) (u v : Label) : NodeMap :=
  match getOrInsert nodes u with
  | (uinf, n1) =>
    let n2 := setNode n1 u { uinf with adj := uinf.adj ++ [v] }
    match getOrInsert n2 v with
    | (vinf, n3) => setNode n3 v { vinf with radj := vinf.radj ++ [u] }

/-- The edge loop of `process`: skip an edge already in `seen_edges`,
otherwise record it and extend both adjacency lists. -/
def buildNodesAux : List (Label × Label) → List (Label × Label) → NodeMap → NodeMap
  | [], _, nodes => nodes
  | e :: rest, seen, nodes =>
    if e ∈ seen then buildNodesAux rest seen nodes
    else buildNodesAux rest (e :: seen) (addEdge nodes e.1 e.2)

/-- GraphBuilder: build the node mapping from the edge list. -/
def buildNodes (edges : List (Label × Label)) : NodeMap :=
  buildNodesAux edges [] []

/-- Specification-side companion of the `seen_edges` test: the sublist of
first occurrences of the edges not already in `seen`. -/
def dedupEdges : List (Label × Label) → List (Label × Label) → List (Label × Label)
  | [], _ => []
  | e :: rest, seen =>
    if e ∈ seen then dedupEdges rest seen else e :: dedupEdges rest (e :: seen)

/-! ### DistanceAnalyzer: `bfs` (lines 71-87) -/

/-- The root-collecting loop of `bfs`: for every node with empty `radj`,
set its distance to `0` and append it to the queue, in mapping order. -/
def bfsInit : NodeMap → NodeMap × List Label
  | [] => ([], [])
  | (u, inf) :: t =>
    let p := bfsInit t
    if inf.radj = [] then ((u, { inf with dist := some 0 }) :: p.1, u :: p.2)
    else ((u, inf) :: p.1, p.2)

/-- The inner `for v in uinf.adj` loop: for each unvisited neighbour,
lower its distance to `du + 1` when unset or larger, and append it to the
queue.  `du` is the distance of the node being visited; every dequeued
node has a set distance (the `qDist` field of `BfsInv`), so the `getD` default
in `bfsLoop` is never exercised. -/
def relaxNeighbors (du : Nat) : List Label → NodeMap → List Label → NodeMap × List Label
  | [], m, q => (m, q)
  | v :: vs, m, q =>
    match getOrInsert m v with
    | (vinf, m1) =>
      if vinf.visited then relaxNeighbors du vs m1 q
      else
        let newinf :=
          match vinf.dist with
          | none => { vinf with dist := some (du + 1) }
          | some d => if du + 1 < d then { vinf with dist := some (du + 1) } else vinf
        relaxNeighbors du vs (setNode m1 v newinf) (q ++ [v])

/-- Total adjacency size of the unvisited nodes; the termination measure
of the `while q` loop. -/
def unvisitedAdjSum : NodeMap → Nat
  | [] => 0
  | (_, inf) :: t => (if inf.visited then 0 else inf.adj.length) + unvisitedAdjSum t

theorem unvisitedAdjSum_append : ∀ (a b : NodeMap),
    unvisitedAdjSum (a ++ b) = unvisitedAdjSum a + unvisitedAdjSum b
  | [], _ => by simp [unvisitedAdjSum]
  | (k, v) :: t, b => by
    simp [unvisitedAdjSum, unvisitedAdjSum_append t b]
    omega

theorem unvisitedAdjSum_getOrInsert (m : NodeMap) (u : Label) :
    unvisitedAdjSum (getOrInsert m u).2 = unvisitedAdjSum m := by
  unfold getOrInsert
  cases lookupNode m u with
  | some inf => rfl
  | none => simp [unvisitedAdjSum_append, unvisitedAdjSum, VertexInfo.init]

theorem unvisitedAdjSum_setNode {m : NodeMap} {u : Label} {inf : VertexInfo}
    (inf' : VertexInfo) (h : lookupNode m u = some inf) :
    unvisitedAdjSum (setNode m u inf') + (if inf.visited then 0 else inf.adj.length)
      = unvisitedAdjSum m + (if inf'.visited then 0 else inf'.adj.length) := by
  induction m with
  | nil => simp [lookupNode] at h
  | cons hd t ih =>
    obtain ⟨k, v⟩ := hd
    by_cases hk : k = u
    · subst hk
      simp [lookupNode] at h
      subst h
      simp [setNode, unvisitedAdjSum]
      omega
    · simp [lookupNode, hk] at h
      have := ih h
      simp [setNode, hk, unvisitedAdjSum]
      omega

/-- Rewriting a present entry without changing its `adj` or `visited`
leaves the termination measure unchanged. -/
theorem unvisitedAdjSum_setNode_same {m : NodeMap} {u : Label} {inf inf' : VertexInfo}
    (h : lookupNode m u = some inf) (ha : inf'.adj = inf.adj)
    (hv : inf'.visited = inf.visited) :
    unvisitedAdjSum (setNode m u inf') = unvisitedAdjSum m := by
  have := unvisitedAdjSum_setNode inf' h
  rw [ha, hv] at this
  omega

theorem relaxNeighbors_measure (du : Nat) (vs : List Label) (m : NodeMap) (q : List Label)
    {m' : NodeMap} {q' : List Label} (h : relaxNeighbors du vs m q = (m', q')) :
    q'.length + unvisitedAdjSum m' ≤ q.length + vs.length + unvisitedAdjSum m := by
  induction vs generalizing m q with
  | nil =>
    simp only [relaxNeighbors, Prod.mk.injEq] at h
    obtain ⟨h1, h2⟩ := h
    subst h1; subst h2
    omega
  | cons v vs ih =>
    simp only [relaxNeighbors] at h
    rcases hlk : lookupNode m v with _ | vinf
    · simp only [getOrInsert, hlk] at h
      replace h : relaxNeighbors du vs
          (setNode (m ++ [(v, VertexInfo.init)]) v { VertexInfo.init with dist := some (du + 1) })
          (q ++ [v]) = (m', q') := h
      have h2 := ih _ _ h
      have h3 : lookupNode (m ++ [(v, VertexInfo.init)]) v = some VertexInfo.init := by
        rw [lookupNode_append_of_none hlk]
        simp [lookupNode]
      have h4 := @unvisitedAdjSum_setNode_same (m ++ [(v, VertexInfo.init)]) v
        VertexInfo.init { VertexInfo.init with dist := some (du + 1) } h3 rfl rfl
      have h5 := unvisitedAdjSum_append m [(v, VertexInfo.init)]
      have h6 : unvisitedAdjSum [(v, VertexInfo.init)] = 0 := rfl
      rw [h4, h5, h6] at h2
      simp only [List.length_append, List.length_cons, List.length_nil] at h2 ⊢
      omega
    · simp only [getOrInsert, hlk] at h
      by_cases hv : vinf.visited
      · rw [if_pos hv] at h
        have := ih _ _ h
        simp only [List.length_cons] at *
        omega
      · rw [if_neg hv] at h
        have key : ∀ newinf : VertexInfo, newinf.adj = vinf.adj → newinf.visited = vinf.visited →
            relaxNeighbors du vs (setNode m v newinf) (q ++ [v]) = (m', q') →
            q'.length + unvisitedAdjSum m' ≤ q.length + (v :: vs).length + unvisitedAdjSum m := by
          intro newinf ha hvv hrec
          have h2 := ih _ _ hrec
          have h4 := unvisitedAdjSum_setNode_same hlk ha hvv
          rw [h4] at h2
          simp only [List.length_append, List.length_cons, List.length_nil] at h2 ⊢
          omega
        refine key _ ?_ ?_ h
        · rcases hvd : vinf.dist with _ | d
          · rfl
          · dsimp only
            split
            · rfl
            · rfl
        · rcases hvd : vinf.dist with _ | d
          · rfl
          · dsimp only
            split
            · rfl
            · rfl

/-- Popping an unvisited node and marking it visited removes its adjacency
contribution from the termination measure. -/
theorem unvisitedAdjSum_markVisited {m : NodeMap} {u : Label} {uinf : VertexInfo}
    {m1 : NodeMap} (h : getOrInsert m u = (uinf, m1)) (hv : uinf.visited = false) :
    unvisitedAdjSum (setNode m1 u { uinf with visited := true }) + uinf.adj.length
      = unvisitedAdjSum m := by
  have hvt : ({ uinf with visited := true } : VertexInfo).visited = true := rfl
  have hva : ({ uinf with visited := true } : VertexInfo).adj = uinf.adj := rfl
  rcases hlk : lookupNode m u with _ | inf
  · simp only [getOrInsert, hlk, Prod.mk.injEq] at h
    obtain ⟨h1, h2⟩ := h
    subst h2
    have h3 : lookupNode (m ++ [(u, VertexInfo.init)]) u = some uinf := by
      rw [lookupNode_append_of_none hlk]
      simp [lookupNode, h1]
    have h4 := unvisitedAdjSum_setNode { uinf with visited := true } h3
    have h5 := unvisitedAdjSum_append m [(u, VertexInfo.init)]
    have h6 : unvisitedAdjSum [(u, VertexInfo.init)] = 0 := rfl
    rw [h5, h6, hv, hvt] at h4
    simp only [Bool.false_eq_true, if_false, if_true] at h4
    omega
  · simp only [getOrInsert, hlk, Prod.mk.injEq] at h
    obtain ⟨h1, h2⟩ := h
    subst h2
    rw [h1] at hlk
    have h4 := unvisitedAdjSum_setNode { uinf with visited := true } hlk
    rw [hv, hvt] at h4
    simp only [Bool.false_eq_true, if_false, if_true] at h4
    omega

/-- The `while q` loop of `bfs`: pop from the front; skip visited nodes;
otherwise mark visited and relax all forward neighbours, appending them to
the queue. -/
def bfsLoop (m : NodeMap) (q : List Label) : NodeMap :=
  match q with
  | [] => m
  | u :: q' =>
    match hg : getOrInsert m u with
    | (uinf, m1) =>
      if hv : uinf.visited then bfsLoop m1 q'
      else
        match hr : relaxNeighbors (uinf.dist.getD 0) uinf.adj
            (setNode m1 u { uinf with visited := true }) q' with
        | (m3, q2) => bfsLoop m3 q2
termination_by q.length + unvisitedAdjSum m
decreasing_by
  · have h1 : m1 = (getOrInsert m u).2 := by rw [hg]
    have h2 := unvisitedAdjSum_getOrInsert m u
    rw [← h1] at h2
    simp only [List.length_cons]
    omega
  · have h2 := relaxNeighbors_measure (uinf.dist.getD 0) uinf.adj
      (setNode m1 u { uinf with visited := true }) q' hr
    have h3 := unvisitedAdjSum_markVisited hg (by simpa using hv)
    simp only [List.length_cons]
    omega

/-- DistanceAnalyzer: the full `bfs` function. -/
def bfs (m : NodeMap) : NodeMap :=
  match bfsInit m with
  | (m1, q) => bfsLoop m1 q

example : bfs [("a", VertexInfo.init), ("b", ⟨[], ["a"], none, false⟩)] =
    [("a", ⟨[], [], some 0, true⟩), ("b", ⟨[], ["a"], none, false⟩)] := by
  simp [bfs, bfsInit, VertexInfo.init, bfsLoop, getOrInsert, lookupNode, relaxNeighbors, setNode]

/-! ### Filter: `process` lines 100-110 -/

/-- The comparison `vinf.dist > max_dist` under Python 2 ordering, where
`None` compares less than every integer: the comparison only succeeds for
nodes with a defined distance, so a `None` distance is never over the
threshold. -/
def distGt (d : Option Nat) (md : Int) : Bool :=
  match d with
  | none => false
  | some n => md < (n : Int)

/-- `bad_nodes`: the labels whose distance exceeds the threshold (the
Python `set` iteration order does not affect the result of the
deletions, so the set is modelled as the list in mapping order). -/
def badNodes (m : NodeMap) (md : Int) : List Label :=
  (m.filter (fun p => distGt p.2.dist md)).map (fun p => p.1)

/-- `for v in bad_nodes: del nodes[v]`. -/
def eraseAllNodes (m : NodeMap) : List Label → NodeMap
  | [] => m
  | v :: vs => eraseAllNodes (eraseNode m v) vs

/-- The adjacency rewrite `uinf.adj = [v for v in uinf.adj if v in nodes]`
(and likewise for `radj`).  Only the values are mutated during the
Python iteration, so every membership test sees the same key set. -/
def restrictAdj (m : NodeMap) : NodeMap :=
  m.map (fun p => (p.1, { p.2 with
    adj := p.2.adj.filter (fun v => memNode m v),
    radj := p.2.radj.filter (fun v => memNode m v) }))

/-- The Filter step of `process` (lines 100-110): remove every node whose
distance exceeds `max_dist` (when a threshold is configured), then prune
dangling adjacency entries. -/
def filterStep (m : NodeMap) (max_dist : Option Int) : NodeMap :=
  let bad := match max_dist with
    | none => []
    | some md => badNodes m md
  restrictAdj (eraseAllNodes m bad)

/-- `process`: GraphBuilder, then DistanceAnalyzer, then Filter. -/
def process (edges : List (Label × Label)) (max_dist : Option Int) : NodeMap :=
  filterStep (bfs (buildNodes edges)) max_dist

/-! ### Scanner + Extractor: `extract` (lines 32-58) -/

/-- A marker recognized by `ENTITY_RE`.  `cmdMarker cmd arg` is the
`\label{...}` / `\begin{...}` / `\end{...}` alternative (groups 4 and 5;
any match has `cmd` one of those three command names); `depMarker lems
thm` is `\thmdep{lems}{thm}` or `\thmdepcref{lems}{thm}` (groups 2 and
3; the two spellings are not distinguished by the loop body). -/
inductive Marker where
  | cmdMarker (cmd arg : String)
  | depMarker (lems thm : String)
  deriving DecidableEq, Repr

/-- The configuration consumed by `extract` and `process`. -/
structure Options where
  exclude_prefixes : List String
  ignore_envs : List String
  max_dist : Option Int
  show_label : Bool
  show_dist : Bool
  deriving Repr

/-- Python string primitives, modelled over the character sequence of
the string (a Python `str` is a sequence of characters). -/
def pyStartsWith (s p : String) : Bool :=
  p.toList.isPrefixOf s.toList

/-- Python `s.startswith(tup)` on a tuple of prefixes: true iff `s`
starts with one of the strings (false for the empty tuple). -/
def startsWithAny (s : String) (ps : List String) : Bool :=
  ps.any (fun p => pyStartsWith s p)

/-- `s.split(sep)` for a one-character separator, on character lists:
cut at every separator, keeping empty pieces, so the result always has
one more piece than there are separators (never zero pieces). -/
def splitCharsAux (sep : Char) : List Char → List Char → List (List Char)
  | [], acc => [acc.reverse]
  | c :: cs, acc =>
    if c = sep then acc.reverse :: splitCharsAux sep cs []
    else splitCharsAux sep cs (c :: acc)

/-- Python `s.split(sep)` for a one-character separator. -/
def pySplit (s : String) (sep : Char) : List String :=
  (splitCharsAux sep s.toList []).map String.mk

/-- The loop of Python `s.replace(pat, rep)`: replace non-overlapping
occurrences left to right.  The `Nat` argument is fuel bounding the loop
count (each iteration consumes at least one character when `pat` is
nonempty, so `s.length` iterations always finish the scan); it keeps the
recursion structural. -/
def replaceCharsAux (pat rep : List Char) : Nat → List Char → List Char
  | _, [] => []
  | 0, s => s
  | n + 1, c :: cs =>
    if pat.isPrefixOf (c :: cs) && !pat.isEmpty then
      rep ++ replaceCharsAux pat rep n (cs.drop (pat.length - 1))
    else c :: replaceCharsAux pat rep n cs

/-- Python `s.replace(pat, rep)` for a nonempty pattern. -/
def pyReplace (s pat rep : String) : String :=
  String.mk (replaceCharsAux pat.toList rep.toList s.toList.length s.toList)

/-- Python `sep.join(parts)`. -/
def joinSep (sep : String) : List String → String
  | [] => ""
  | [x] => x
  | x :: y :: xs => x ++ sep ++ joinSep sep (y :: xs)

/-- The local state of one `extract` call, together with the `edges`
accumulator it mutates and the warnings written to stderr. -/
structure ExtractState where
  curr_node : String
  ignore_mode : Bool
  empty_thm_warned : Bool
  edges : List (Label × Label)
  warnings : List String
  deriving DecidableEq, Repr

/-- The state at the top of `extract`: `curr_node = ''`,
`ignore_mode = False`, `empty_thm_warned = False`, the shared edge
accumulator passed in, and nothing warned yet. -/
def initExtractState (edges0 : List (Label × Label)) : ExtractState :=
  { curr_node := "", ignore_mode := false, empty_thm_warned := false,
    edges := edges0, warnings := [] }

/-- The text of `warn(r'use of empty thm before \label in ' + ifpath)`. -/
def emptyThmWarning (ifpath : String) : String :=
  "use of empty thm before \\label in " ++ ifpath

/-- The edge-appending loop `for lem in lems.split(',')` with the
prefix-exclusion test. -/
def appendEdges (o : Options) (thm : String) (lems : String)
    (es : List (Label × Label)) : List (Label × Label) :=
  (pySplit lems ',').foldl
    (fun acc lem =>
      if !startsWithAny lem o.exclude_prefixes && !startsWithAny thm o.exclude_prefixes
      then acc ++ [(thm, lem)] else acc) es

/-- The body of the `for match in re.finditer(ENTITY_RE, s)` loop of
`extract`, one marker at a time. -/
def extractStep (o : Options) (ifpath : String) (st : ExtractState) : Marker → ExtractState
  | .cmdMarker cmd arg =>
    if st.ignore_mode then
      if cmd == "end" && o.ignore_envs.contains arg then { st with ignore_mode := false }
      else st
    else
      if cmd == "begin" && o.ignore_envs.contains arg then { st with ignore_mode := true }
      else if cmd == "label" then { st with curr_node := arg }
      else st
  | .depMarker lems thm =>
    if st.ignore_mode then st
    else
      let st1 :=
        if thm == "" then
          if st.curr_node == "" && !st.empty_thm_warned then
            { st with empty_thm_warned := true,
                      warnings := st.warnings ++ [emptyThmWarning ifpath] }
          else st
        else st
      let thmv := if thm == "" then st.curr_node else thm
      { st1 with edges := appendEdges o thmv lems st1.edges }

/-- `extract` on one document, given the marker sequence the regular
expression finds in its (comment-stripped) text. -/
def extract (o : Options) (ifpath : String) (ms : List Marker)
    (edges0 : List (Label × Label)) : ExtractState :=
  ms.foldl (extractStep o ifpath) (initExtractState edges0)

/-! ### Serializer: `output` (lines 115-138) -/

/-- Python `str` applied to an optional distance: `str(None) = 'None'`. -/
def pyStr (d : Option Nat) : String :=
  match d with
  | none => "None"
  | some n => toString n

/-- The header `'\begin{tikzpicture}\n\graph[#1] {'` with the raw options
joined by `', '` substituted for `#1`. -/
def tikzHeader (raw_options : List String) : String :=
  pyReplace "\\begin\x7btikzpicture\x7d\n\\graph[#1] \x7b" "#1"
    (joinSep ", " raw_options)

/-- One node-declaration line of the TikZ output: the label, its caption
built from `\cref`, and the optional small-print annotations. -/
def nodeLine (o : Options) (v : Label) (vinf : VertexInfo) : String :=
  let sub_parts : List (String × String) :=
    (if o.show_label then [("\\texttt", v)] else []) ++
    (if o.show_dist then [("", "dist: " ++ pyStr vinf.dist)] else [])
  let tinytt_text :=
    if sub_parts.isEmpty then ""
    else "\\\\" ++ joinSep "\\\\"
      (sub_parts.map (fun p => pyReplace (pyReplace "\x7b\\tiny#1\x7b#2\x7d\x7d" "#1" p.1) "#2" p.2))
  (pyReplace "\"#1\"/\"\\cref\x7b#1\x7d" "#1" v) ++ tinytt_text ++ "\";"

/-- One edge line `'"#1" -> "#2";'`. -/
def edgeLine (u v : Label) : String :=
  pyReplace (pyReplace "\"#1\" -> \"#2\";" "#1" u) "#2" v

/-- The closing lines `'};\n\end{tikzpicture}'`. -/
def tikzFooter : String := "\x7d;\n\\end\x7btikzpicture\x7d"

/-- `output`: for the supported format `tikz`, the lines printed to the
output stream in order; for any other format the `NotImplementedError`
is raised before anything is written, so the error carries no lines. -/
def output (nodes : NodeMap) (format : String) (o : Options)
    (raw_options : List String) : Except String (List String) :=
  if format == "tikz" then
    .ok ([tikzHeader raw_options]
      ++ nodes.map (fun p => nodeLine o p.1 p.2)
      ++ (nodes.map (fun p => p.2.adj.map (fun v => edgeLine p.1 v))).flatten
      ++ [tikzFooter])
  else
    .error ("format " ++ "'" ++ format ++ "'" ++ " is not supported")

/-- The default options: no excluded prefixes, the default ignored
environments, no distance bound, no extra node text. -/
def defaultOptions : Options :=
  { exclude_prefixes := [], ignore_envs := ["comment", "optional", "obsolete", "error"],
    max_dist := none, show_label := false, show_dist := false }

/-- The default raw options for the tikz format (`DEFAULT_RAW_OPTIONS`). -/
def defaultRawOptions : List String :=
  ["nodes=\x7bdraw, rectangle, align=center\x7d", "layered layout",
   "sibling distance=10mm", "level distance=15mm"]

example :
    (extract defaultOptions "f.tex" [.cmdMarker "label" "A", .depMarker "B" ""] []).edges
      = [("A", "B")] := by decide

example :
    process [("A", "B")] none =
      [("A", ⟨["B"], [], some 0, true⟩), ("B", ⟨[], ["A"], some 1, true⟩)] := by
  simp [process, buildNodes, buildNodesAux, addEdge, getOrInsert, lookupNode, setNode,
    bfs, bfsInit, bfsLoop, relaxNeighbors, filterStep, badNodes, eraseAllNodes,
    restrictAdj, memNode, VertexInfo.init]

/-! ### Dictionary lemmas -/

theorem lookupNode_setNode_self (m : NodeMap) (u : Label) (inf : VertexInfo) :
    lookupNode (setNode m u inf) u = some inf := by
  induction m with
  | nil => simp [setNode, lookupNode]
  | cons hd t ih =>
    obtain ⟨k, v⟩ := hd
    by_cases hk : k = u
    · simp [setNode, lookupNode, hk]
    · simp [setNode, lookupNode, hk, ih]

theorem lookupNode_setNode_other (m : NodeMap) (u w : Label) (inf : VertexInfo)
    (h : w ≠ u) : lookupNode (setNode m u inf) w = lookupNode m w := by
  have h' : u ≠ w := fun hh => h hh.symm
  induction m with
  | nil => simp [setNode, lookupNode, h']
  | cons hd t ih =>
    obtain ⟨k, v⟩ := hd
    by_cases hk : k = u
    · subst hk
      simp [setNode, lookupNode, h']
    · by_cases hw : k = w
      · simp [setNode, hk, lookupNode, hw, h]
      · simp [setNode, hk, lookupNode, hw, ih]

theorem lookupNode_getOrInsert_fst (m : NodeMap) (u : Label) :
    (getOrInsert m u).1 = (lookupNode m u).getD VertexInfo.init := by
  unfold getOrInsert
  cases lookupNode m u <;> rfl

theorem lookupNode_getOrInsert_self (m : NodeMap) (u : Label) :
    lookupNode (getOrInsert m u).2 u = some ((lookupNode m u).getD VertexInfo.init) := by
  unfold getOrInsert
  rcases h : lookupNode m u with _ | inf
  · simp [lookupNode_append_of_none h, lookupNode]
  · simpa using h

theorem lookupNode_getOrInsert_other (m : NodeMap) (u w : Label) (h : w ≠ u) :
    lookupNode (getOrInsert m u).2 w = lookupNode m w := by
  have h' : u ≠ w := fun hh => h hh.symm
  unfold getOrInsert
  rcases hl : lookupNode m u with _ | inf
  · rcases hw : lookupNode m w with _ | winf
    · simp [lookupNode_append_of_none hw, lookupNode, h']
    · clear hl
      induction m with
      | nil => simp [lookupNode] at hw
      | cons hd t ih =>
        obtain ⟨k, v⟩ := hd
        by_cases hk : k = w
        · simp_all [lookupNode]
        · simp only [lookupNode, hk, if_false] at hw
          simpa [lookupNode, hk] using ih hw
  · rfl

/-- The stored info of a label, with the `defaultdict` default. -/
def infAt (m : NodeMap) (u : Label) : VertexInfo :=
  (lookupNode m u).getD VertexInfo.init

/-! ### GraphBuilder characterization (towards claim C3) -/

/-- The forward adjacency the unique-edge list `D` dictates for `u`:
the dependencies of the retained edges with target `u`, in order. -/
def adjSpec (u : Label) (D : List (Label × Label)) : List Label :=
  (D.filter (fun e => e.1 == u)).map (fun e => e.2)

/-- The backward adjacency the unique-edge list `D` dictates for `u`. -/
def radjSpec (u : Label) (D : List (Label × Label)) : List Label :=
  (D.filter (fun e => e.2 == u)).map (fun e => e.1)

/-- Lookup after `addEdge`, stage by stage. -/
theorem infAt_addEdge (m : NodeMap) (u v w : Label) :
    infAt (addEdge m u v) w =
      { infAt m w with
        adj := (infAt m w).adj ++ (if u = w then [v] else []),
        radj := (infAt m w).radj ++ (if v = w then [u] else []) }
    ∧ memNode (addEdge m u v) w = (memNode m w || u == w || v == w) := by
  unfold addEdge
  rcases hg : getOrInsert m u with ⟨uinf, n1⟩
  simp only
  rcases hg2 : getOrInsert (setNode n1 u { uinf with adj := uinf.adj ++ [v] }) v with ⟨vinf, n3⟩
  simp only
  have huinf : uinf = infAt m u := by
    rw [infAt, ← lookupNode_getOrInsert_fst m u, hg]
  have hl1 : ∀ x, lookupNode n1 x = if x = u then some (infAt m u) else lookupNode m x := by
    intro x
    have hn1 : n1 = (getOrInsert m u).2 := by rw [hg]
    subst hn1
    by_cases hx : x = u
    · subst hx
      rw [lookupNode_getOrInsert_self]
      simp [infAt]
    · rw [lookupNode_getOrInsert_other _ _ _ hx, if_neg hx]
  have hl2 : ∀ x, lookupNode (setNode n1 u { uinf with adj := uinf.adj ++ [v] }) x
      = if x = u then some { infAt m u with adj := (infAt m u).adj ++ [v] }
        else lookupNode m x := by
    intro x
    by_cases hx : x = u
    · subst hx
      rw [lookupNode_setNode_self, if_pos rfl, huinf]
    · rw [lookupNode_setNode_other _ _ _ _ hx, hl1 x, if_neg hx, if_neg hx]
  have hv0 : vinf = (lookupNode (setNode n1 u { uinf with adj := uinf.adj ++ [v] }) v).getD
      VertexInfo.init := by
    rw [← lookupNode_getOrInsert_fst _ v, hg2]
  have hvinf : vinf = (if v = u then { infAt m u with adj := (infAt m u).adj ++ [v] }
      else infAt m v) := by
    rw [hv0, hl2 v]
    by_cases hvu : v = u
    · simp [hvu]
    · simp [hvu, infAt]
  have hl3 : ∀ x, lookupNode n3 x = if x = v then some vinf
      else lookupNode (setNode n1 u { uinf with adj := uinf.adj ++ [v] }) x := by
    intro x
    have hn3 : n3 = (getOrInsert (setNode n1 u { uinf with adj := uinf.adj ++ [v] }) v).2 := by
      rw [hg2]
    subst hn3
    by_cases hx : x = v
    · subst hx
      rw [lookupNode_getOrInsert_self, if_pos rfl, ← hv0]
    · rw [lookupNode_getOrInsert_other _ _ _ hx, if_neg hx]
  have hfin : ∀ x, lookupNode (setNode n3 v { vinf with radj := vinf.radj ++ [u] }) x
      = if x = v then some { vinf with radj := vinf.radj ++ [u] } else lookupNode n3 x := by
    intro x
    by_cases hx : x = v
    · subst hx
      rw [lookupNode_setNode_self, if_pos rfl]
    · rw [lookupNode_setNode_other _ _ _ _ hx, if_neg hx]
  constructor
  · rw [infAt, hfin w]
    by_cases hwv : w = v
    · subst hwv
      rw [if_pos rfl, hvinf]
      by_cases hwu : w = u
      · subst hwu
        simp
      · have huw : ¬(u = w) := fun hh => hwu hh.symm
        simp [hwu, huw]
    · rw [if_neg hwv, hl3 w, if_neg hwv, hl2 w]
      have hvw : ¬(v = w) := fun hh => hwv hh.symm
      by_cases hwu : w = u
      · subst hwu
        simp [hvw, infAt]
      · have huw : ¬(u = w) := fun hh => hwu hh.symm
        simp [hwu, huw, hvw, infAt]
  · rw [memNode, hfin w]
    by_cases hwv : w = v
    · subst hwv
      simp [memNode]
    · rw [if_neg hwv, hl3 w, if_neg hwv, hl2 w]
      have hvw : ¬(v == w) := by
        simpa using fun hh : v = w => hwv hh.symm
      by_cases hwu : w = u
      · subst hwu
        simp [memNode, hvw]
      · have huw : ¬(u == w) := by
          simpa using fun hh : u = w => hwu hh.symm
        simp [memNode, hvw, huw, hwu]

theorem buildNodesAux_char (edges : List (Label × Label)) :
    ∀ (seen : List (Label × Label)) (m : NodeMap) (w : Label),
      memNode (buildNodesAux edges seen m) w
        = (memNode m w || (dedupEdges edges seen).any (fun e => e.1 == w || e.2 == w))
      ∧ infAt (buildNodesAux edges seen m) w
        = { infAt m w with
            adj := (infAt m w).adj ++ adjSpec w (dedupEdges edges seen),
            radj := (infAt m w).radj ++ radjSpec w (dedupEdges edges seen) } := by
  induction edges with
  | nil =>
    intro seen m w
    simp [buildNodesAux, dedupEdges, adjSpec, radjSpec]
  | cons e rest ih =>
    intro seen m w
    by_cases he : e ∈ seen
    · simp only [buildNodesAux, dedupEdges, if_pos he]
      exact ih seen m w
    · simp only [buildNodesAux, dedupEdges, if_neg he]
      obtain ⟨h1, h2⟩ := ih (e :: seen) (addEdge m e.1 e.2) w
      obtain ⟨g1, g2⟩ := infAt_addEdge m e.1 e.2 w
      constructor
      · rw [h1, g2]
        simp [Bool.or_assoc]
      · rw [h2, g1]
        simp only [adjSpec, radjSpec, List.filter_cons]
        by_cases h1w : e.1 = w
        · by_cases h2w : e.2 = w
          · simp [h1w, h2w]
          · simp [h1w, h2w]
        · by_cases h2w : e.2 = w
          · simp [h1w, h2w]
          · simp [h1w, h2w]

theorem dedupEdges_nodup (edges : List (Label × Label)) :
    ∀ seen, (dedupEdges edges seen).Nodup ∧ ∀ e ∈ dedupEdges edges seen, e ∉ seen := by
  induction edges with
  | nil => intro seen; simp [dedupEdges]
  | cons e rest ih =>
    intro seen
    by_cases he : e ∈ seen
    · simp only [dedupEdges, if_pos he]
      exact ih seen
    · simp only [dedupEdges, if_neg he]
      obtain ⟨hn, hs⟩ := ih (e :: seen)
      refine ⟨List.nodup_cons.mpr ⟨fun hmem => (hs e hmem) (by simp), hn⟩, ?_⟩
      intro f hf
      rcases List.mem_cons.mp hf with hfe | hfd
      · subst hfe; exact he
      · intro hfs
        exact (hs f hfd) (List.mem_cons_of_mem _ hfs)

theorem dedupEdges_mem (edges : List (Label × Label)) :
    ∀ seen e, e ∈ dedupEdges edges seen ↔ (e ∈ edges ∧ e ∉ seen) := by
  induction edges with
  | nil => intro seen e; simp [dedupEdges]
  | cons f rest ih =>
    intro seen e
    by_cases hf : f ∈ seen
    · simp only [dedupEdges, if_pos hf]
      rw [ih seen e]
      constructor
      · rintro ⟨h1, h2⟩
        exact ⟨List.mem_cons_of_mem _ h1, h2⟩
      · rintro ⟨h1, h2⟩
        rcases List.mem_cons.mp h1 with rfl | h1
        · exact absurd hf h2
        · exact ⟨h1, h2⟩
    · simp only [dedupEdges, if_neg hf, List.mem_cons]
      rw [ih (f :: seen) e]
      constructor
      · rintro (rfl | ⟨h1, h2⟩)
        · exact ⟨Or.inl rfl, hf⟩
        · exact ⟨Or.inr h1, fun hs => h2 (List.mem_cons_of_mem _ hs)⟩
      · rintro ⟨h1 | h1, h2⟩
        · exact Or.inl h1
        · by_cases hef : e = f
          · exact Or.inl hef
          · exact Or.inr ⟨h1, by simp [hef, h2]⟩

theorem mem_adjSpec (u v : Label) (D : List (Label × Label)) :
    v ∈ adjSpec u D ↔ (u, v) ∈ D := by
  simp only [adjSpec, List.mem_map, List.mem_filter]
  constructor
  · rintro ⟨e, ⟨he, h1⟩, h2⟩
    have : e = (u, v) := by
      cases e
      simp_all
    rwa [this] at he
  · intro h
    exact ⟨(u, v), ⟨h, by simp⟩, rfl⟩

theorem mem_radjSpec (u v : Label) (D : List (Label × Label)) :
    u ∈ radjSpec v D ↔ (u, v) ∈ D := by
  simp only [radjSpec, List.mem_map, List.mem_filter]
  constructor
  · rintro ⟨e, ⟨he, h2⟩, h1⟩
    have : e = (u, v) := by
      cases e
      simp_all
    rwa [this] at he
  · intro h
    exact ⟨(u, v), ⟨h, by simp⟩, rfl⟩

theorem adjSpec_count_le_one (u v : Label) (D : List (Label × Label)) (hnd : D.Nodup) :
    (adjSpec u D).count v ≤ 1 := by
  induction D with
  | nil => simp [adjSpec]
  | cons e t ih =>
    obtain ⟨het, hnt⟩ := List.nodup_cons.mp hnd
    simp only [adjSpec, List.filter_cons] at ih ⊢
    by_cases h1 : e.1 = u
    · by_cases h2 : e.2 = v
      · have hev : e = (u, v) := by
          cases e
          simp_all
        have hz : (adjSpec u t).count v = 0 := by
          rw [List.count_eq_zero]
          intro hmem
          exact het (by rw [hev]; exact (mem_adjSpec u v t).mp hmem)
        simp only [adjSpec] at hz
        simp [h1, h2, List.count_cons, hz]
      · simp [h1, List.count_cons, h2, ih hnt]
    · simp [h1, ih hnt]

theorem radjSpec_count_le_one (u v : Label) (D : List (Label × Label)) (hnd : D.Nodup) :
    (radjSpec v D).count u ≤ 1 := by
  induction D with
  | nil => simp [radjSpec]
  | cons e t ih =>
    obtain ⟨het, hnt⟩ := List.nodup_cons.mp hnd
    simp only [radjSpec, List.filter_cons] at ih ⊢
    by_cases h2 : e.2 = v
    · by_cases h1 : e.1 = u
      · have hev : e = (u, v) := by
          cases e
          simp_all
        have hz : (radjSpec v t).count u = 0 := by
          rw [List.count_eq_zero]
          intro hmem
          exact het (by rw [hev]; exact (mem_radjSpec u v t).mp hmem)
        simp only [radjSpec] at hz
        simp [h1, h2, List.count_cons, hz]
      · simp [h2, List.count_cons, h1, ih hnt]
    · simp [h2, ih hnt]

/-- C3: after GraphBuilder, each distinct (target, dependency) pair
contributes at most one forward-adjacency entry and at most one
backward-adjacency entry (duplicate input edges are skipped), a node
exists exactly for the labels occurring in the retained edges, and the
adjacency lists are in first-seen order among the unique edges. -/
theorem buildNodes_dedup_first_seen (edges : List (Label × Label)) :
    (∀ w, memNode (buildNodes edges) w
        = (dedupEdges edges []).any (fun e => e.1 == w || e.2 == w))
    ∧ (∀ w, (infAt (buildNodes edges) w).adj = adjSpec w (dedupEdges edges [])
        ∧ (infAt (buildNodes edges) w).radj = radjSpec w (dedupEdges edges []))
    ∧ (∀ u v, (infAt (buildNodes edges) u).adj.count v ≤ 1
        ∧ (infAt (buildNodes edges) v).radj.count u ≤ 1)
    ∧ (∀ e, e ∈ dedupEdges edges [] ↔ e ∈ edges)
    ∧ (∀ e, e ∈ edges → memNode (buildNodes edges) e.1 = true
        ∧ memNode (buildNodes edges) e.2 = true) := by
  have hchar := buildNodesAux_char edges [] []
  have hmem : ∀ w, memNode (buildNodes edges) w
      = (dedupEdges edges []).any (fun e => e.1 == w || e.2 == w) := by
    intro w
    have := (hchar w).1
    simpa [buildNodes, memNode, lookupNode] using this
  have hadj : ∀ w, (infAt (buildNodes edges) w).adj = adjSpec w (dedupEdges edges [])
      ∧ (infAt (buildNodes edges) w).radj = radjSpec w (dedupEdges edges []) := by
    intro w
    have := (hchar w).2
    unfold buildNodes
    rw [this]
    simp [infAt, lookupNode, VertexInfo.init]
  have hnd := (dedupEdges_nodup edges []).1
  have hmemiff : ∀ e, e ∈ dedupEdges edges [] ↔ e ∈ edges := by
    intro e
    rw [dedupEdges_mem edges [] e]
    simp
  refine ⟨hmem, hadj, ?_, hmemiff, ?_⟩
  · intro u v
    constructor
    · rw [(hadj u).1]
      exact adjSpec_count_le_one u v _ hnd
    · rw [(hadj v).2]
      exact radjSpec_count_le_one u v _ hnd
  · intro e he
    have hd : e ∈ dedupEdges edges [] := (hmemiff e).mpr he
    constructor
    · rw [hmem e.1]
      rw [List.any_eq_true]
      exact ⟨e, hd, by simp⟩
    · rw [hmem e.2]
      rw [List.any_eq_true]
      exact ⟨e, hd, by simp⟩

/-- Witness for C3 at a concrete edge list with a duplicate edge. -/
theorem buildNodes_dedup_first_seen_witness :
    (infAt (buildNodes [("A", "B"), ("A", "B"), ("A", "C")]) "A").adj = ["B", "C"]
    ∧ memNode (buildNodes [("A", "B"), ("A", "B"), ("A", "C")]) "C" = true := by
  obtain ⟨hmem, hadj, hcount, hiff, hexist⟩ :=
    buildNodes_dedup_first_seen [("A", "B"), ("A", "B"), ("A", "C")]
  constructor
  · rw [(hadj "A").1]
    decide
  · exact (hexist ("A", "C") (by decide)).2

/-! ### Filter characterization (towards claims C1, C4, C5) -/

theorem lookupNode_eraseNode (m : NodeMap) (u w : Label) :
    lookupNode (eraseNode m u) w = if w = u then none else lookupNode m w := by
  induction m with
  | nil => simp [eraseNode, lookupNode]
  | cons hd t ih =>
    obtain ⟨k, v⟩ := hd
    by_cases hk : k = u
    · subst hk
      by_cases hw : k = w
      · subst hw
        simp [eraseNode, lookupNode, ih]
      · simp [eraseNode, lookupNode, hw, ih]
    · by_cases hw : k = w
      · subst hw
        simp [eraseNode, lookupNode, hk, ih]
      · simp [eraseNode, lookupNode, hk, hw, ih]

theorem lookupNode_eraseAllNodes (bad : List Label) : ∀ (m : NodeMap) (w : Label),
    lookupNode (eraseAllNodes m bad) w = if w ∈ bad then none else lookupNode m w := by
  induction bad with
  | nil => intro m w; simp [eraseAllNodes]
  | cons v vs ih =>
    intro m w
    simp only [eraseAllNodes]
    rw [ih]
    by_cases hw : w ∈ vs
    · simp [hw]
    · rw [if_neg hw, lookupNode_eraseNode]
      by_cases hwv : w = v
      · simp [hwv]
      · simp [hwv, hw]

theorem lookupNode_restrictAdj (m : NodeMap) (w : Label) :
    lookupNode (restrictAdj m) w = (lookupNode m w).map (fun inf =>
      { inf with adj := inf.adj.filter (fun v => memNode m v),
                 radj := inf.radj.filter (fun v => memNode m v) }) := by
  unfold restrictAdj
  generalize hp : (fun v => memNode m v) = p
  clear hp
  induction m with
  | nil => simp [lookupNode]
  | cons hd t ih =>
    obtain ⟨k, v⟩ := hd
    by_cases hk : k = w
    · simp [lookupNode, hk]
    · simp [lookupNode, hk, ih]

theorem memNode_restrictAdj (m : NodeMap) (w : Label) :
    memNode (restrictAdj m) w = memNode m w := by
  unfold memNode
  rw [lookupNode_restrictAdj]
  cases lookupNode m w <;> simp

/-- Membership of a label in `bad_nodes`. -/
theorem mem_badNodes (m : NodeMap) (md : Int) (u : Label) :
    u ∈ badNodes m md ↔ ∃ inf, (u, inf) ∈ m ∧ distGt inf.dist md = true := by
  unfold badNodes
  simp only [List.mem_map, List.mem_filter]
  constructor
  · rintro ⟨⟨k, i⟩, ⟨hm, hgt⟩, rfl⟩
    exact ⟨i, hm, hgt⟩
  · rintro ⟨i, hm, hgt⟩
    exact ⟨(u, i), ⟨hm, hgt⟩, rfl⟩

/-- With no duplicate keys, the entries of the mapping are exactly the
lookup results. -/
theorem mem_iff_lookupNode {m : NodeMap} (hnd : NodupKeys m) (u : Label) (inf : VertexInfo) :
    (u, inf) ∈ m ↔ lookupNode m u = some inf := by
  induction m with
  | nil => simp [lookupNode]
  | cons hd t ih =>
    obtain ⟨k, v⟩ := hd
    obtain ⟨hk, ht⟩ : k ∉ nodeKeys t ∧ NodupKeys t := by
      simpa [NodupKeys, nodeKeys] using hnd
    by_cases hku : k = u
    · subst hku
      simp only [lookupNode, if_pos rfl, List.mem_cons]
      constructor
      · rintro (h | h)
        · simp [Prod.ext_iff] at h
          simp [h]
        · exfalso
          exact hk (by simpa [nodeKeys] using List.mem_map_of_mem (fun p => p.1) h)
      · intro h
        left
        simp at h
        simp [h]
    · simp only [lookupNode, hku, if_false, List.mem_cons]
      rw [ih ht]
      constructor
      · rintro (h | h)
        · exfalso
          simp [Prod.ext_iff] at h
          exact hku h.1.symm
        · exact h
      · intro h
        right
        exact h

/-- C1: with a numeric threshold, the Filter step removes exactly the
nodes whose defined distance is strictly greater than the threshold; a
node with an unset distance is never removed (and keeps its unset
distance), and the step is total, so nodes of a rootless cyclic
component survive every finite threshold. -/
theorem filterStep_removes_exactly_over_threshold (m : NodeMap) (hnd : NodupKeys m)
    (md : Int) (u : Label) (inf : VertexInfo) (hl : lookupNode m u = some inf) :
    (lookupNode (filterStep m (some md)) u = none
      ↔ ∃ d, inf.dist = some d ∧ md < (d : Int))
    ∧ (inf.dist = none →
        ∃ inf2, lookupNode (filterStep m (some md)) u = some inf2 ∧ inf2.dist = none) := by
  have hstep : ∀ w, lookupNode (filterStep m (some md)) w
      = (if w ∈ badNodes m md then none else lookupNode m w).map (fun i =>
          { i with adj := i.adj.filter (fun v => memNode (eraseAllNodes m (badNodes m md)) v),
                   radj := i.radj.filter (fun v => memNode (eraseAllNodes m (badNodes m md)) v) }) := by
    intro w
    unfold filterStep
    simp only
    rw [lookupNode_restrictAdj, lookupNode_eraseAllNodes]
  have hbad : u ∈ badNodes m md ↔ distGt inf.dist md = true := by
    rw [mem_badNodes]
    constructor
    · rintro ⟨i, hi, hgt⟩
      rw [mem_iff_lookupNode hnd] at hi
      rw [hi] at hl
      cases hl
      exact hgt
    · intro hgt
      exact ⟨inf, (mem_iff_lookupNode hnd u inf).mpr hl, hgt⟩
  constructor
  · rw [hstep u]
    by_cases hb : u ∈ badNodes m md
    · simp only [if_pos hb, Option.map_none]
      constructor
      · intro _
        have := hbad.mp hb
        unfold distGt at this
        rcases hd : inf.dist with _ | d
        · rw [hd] at this
          simp at this
        · rw [hd] at this
          simp at this
          exact ⟨d, rfl, this⟩
      · intro _
        rfl
    · simp only [if_neg hb, hl, Option.map_some]
      constructor
      · intro h
        simp at h
      · rintro ⟨d, hd, hgt⟩
        exfalso
        apply hb
        apply hbad.mpr
        unfold distGt
        rw [hd]
        simpa using hgt
  · intro hdist
    rw [hstep u]
    have hb : u ∉ badNodes m md := by
      rw [hbad]
      unfold distGt
      rw [hdist]
      simp
    rw [if_neg hb, hl]
    exact ⟨_, rfl, by simp [hdist]⟩

/-- Witness for C1: a two-node cycle (both distances unset) plus a root,
threshold 0: the distance-1 node is removed, the cycle nodes survive. -/
theorem filterStep_removes_exactly_witness :
    (lookupNode (filterStep
        [("r", ⟨["x"], [], some 0, true⟩), ("x", ⟨[], ["r"], some 1, true⟩),
         ("a", ⟨["b"], ["b"], none, false⟩), ("b", ⟨["a"], ["a"], none, false⟩)]
        (some 0)) "x" = none)
    ∧ (∃ inf2, lookupNode (filterStep
        [("r", ⟨["x"], [], some 0, true⟩), ("x", ⟨[], ["r"], some 1, true⟩),
         ("a", ⟨["b"], ["b"], none, false⟩), ("b", ⟨["a"], ["a"], none, false⟩)]
        (some 0)) "a" = some inf2 ∧ inf2.dist = none) := by
  constructor
  · exact (filterStep_removes_exactly_over_threshold
      [("r", ⟨["x"], [], some 0, true⟩), ("x", ⟨[], ["r"], some 1, true⟩),
       ("a", ⟨["b"], ["b"], none, false⟩), ("b", ⟨["a"], ["a"], none, false⟩)]
      (by decide) 0 "x" ⟨[], ["r"], some 1, true⟩ (by decide)).1.mpr ⟨1, rfl, by decide⟩
  · exact (filterStep_removes_exactly_over_threshold
      [("r", ⟨["x"], [], some 0, true⟩), ("x", ⟨[], ["r"], some 1, true⟩),
       ("a", ⟨["b"], ["b"], none, false⟩), ("b", ⟨["a"], ["a"], none, false⟩)]
      (by decide) 0 "a" ⟨["b"], ["b"], none, false⟩ (by decide)).2 rfl

/-- Unfolding of the Filter step. -/
theorem filterStep_eq (m : NodeMap) (md : Option Int) :
    filterStep m md = restrictAdj (eraseAllNodes m
      (match md with | none => [] | some mdv => badNodes m mdv)) := rfl

theorem restrictAdj_closed (E : NodeMap) (u : Label) (inf2 : VertexInfo)
    (hl : lookupNode (restrictAdj E) u = some inf2) :
    (∀ v ∈ inf2.adj, memNode (restrictAdj E) v = true)
    ∧ (∀ v ∈ inf2.radj, memNode (restrictAdj E) v = true)
    ∧ ∃ inf1, lookupNode E u = some inf1
        ∧ inf2.adj = inf1.adj.filter (fun v => memNode (restrictAdj E) v)
        ∧ inf2.radj = inf1.radj.filter (fun v => memNode (restrictAdj E) v)
        ∧ inf2.adj.Sublist inf1.adj ∧ inf2.radj.Sublist inf1.radj := by
  rw [lookupNode_restrictAdj] at hl
  rcases he : lookupNode E u with _ | inf1
  · rw [he] at hl
    simp at hl
  · rw [he] at hl
    have hl2 : ({ inf1 with adj := inf1.adj.filter (fun v => memNode E v), radj := inf1.radj.filter (fun v => memNode E v) } : VertexInfo) = inf2 :=
      Option.some.inj hl
    have hadj : inf2.adj = inf1.adj.filter (fun v => memNode E v) := by
      rw [← hl2]
    have hradj : inf2.radj = inf1.radj.filter (fun v => memNode E v) := by
      rw [← hl2]
    have hmr : ∀ v, memNode (restrictAdj E) v = memNode E v := memNode_restrictAdj E
    refine ⟨?_, ?_, inf1, rfl, ?_, ?_, ?_, ?_⟩
    · intro v hv
      rw [hadj, List.mem_filter] at hv
      rw [hmr v]
      exact hv.2
    · intro v hv
      rw [hradj, List.mem_filter] at hv
      rw [hmr v]
      exact hv.2
    · rw [hadj]
      congr 1
      funext v
      rw [hmr v]
    · rw [hradj]
      congr 1
      funext v
      rw [hmr v]
    · rw [hadj]
      exact List.filter_sublist _
    · rw [hradj]
      exact List.filter_sublist _

/-- C4: every adjacency entry of a node retained by the Filter step still
has a node in the filtered mapping, and the surviving entries are the
original ones in their original relative order. -/
theorem filterStep_adjacency_closed (m : NodeMap) (md : Option Int) (u : Label)
    (inf2 : VertexInfo) (hl : lookupNode (filterStep m md) u = some inf2) :
    (∀ v ∈ inf2.adj, memNode (filterStep m md) v = true)
    ∧ (∀ v ∈ inf2.radj, memNode (filterStep m md) v = true)
    ∧ ∃ inf, lookupNode m u = some inf
        ∧ inf2.adj.Sublist inf.adj ∧ inf2.radj.Sublist inf.radj
        ∧ inf2.adj = inf.adj.filter (fun v => memNode (filterStep m md) v)
        ∧ inf2.radj = inf.radj.filter (fun v => memNode (filterStep m md) v) := by
  rw [filterStep_eq] at hl
  obtain ⟨h1, h2, inf1, he, ha, hr, hsa, hsr⟩ := restrictAdj_closed _ u inf2 hl
  have hm : lookupNode m u = some inf1 := by
    rw [lookupNode_eraseAllNodes] at he
    by_cases hu : u ∈ (match md with | none => ([] : List Label) | some mdv => badNodes m mdv)
    · rw [if_pos hu] at he
      cases he
    · rwa [if_neg hu] at he
  rw [filterStep_eq]
  exact ⟨h1, h2, inf1, hm, hsa, hsr, ha, hr⟩

/-- Witness for C4 on a concrete filtered mapping. -/
theorem filterStep_adjacency_closed_witness :
    ∃ inf2, lookupNode (filterStep
        [("r", ⟨["x", "y"], [], some 0, true⟩), ("x", ⟨[], ["r"], some 1, true⟩),
         ("y", ⟨[], ["r"], some 2, true⟩)] (some 1)) "r" = some inf2
      ∧ (∀ v ∈ inf2.adj, memNode (filterStep
          [("r", ⟨["x", "y"], [], some 0, true⟩), ("x", ⟨[], ["r"], some 1, true⟩),
           ("y", ⟨[], ["r"], some 2, true⟩)] (some 1)) v = true)
      ∧ inf2.adj = ["x"] := by
  refine ⟨⟨["x"], [], some 0, true⟩, by decide, ?_, by decide⟩
  exact (filterStep_adjacency_closed
    [("r", ⟨["x", "y"], [], some 0, true⟩), ("x", ⟨[], ["r"], some 1, true⟩),
     ("y", ⟨[], ["r"], some 2, true⟩)] (some 1) "r" ⟨["x"], [], some 0, true⟩ (by decide)).1

/-! ### Idempotence of the Filter step (towards claim C5) -/

theorem eraseNode_eq_filter (m : NodeMap) (u : Label) :
    eraseNode m u = m.filter (fun p => !(p.1 == u)) := by
  induction m with
  | nil => simp [eraseNode]
  | cons hd t ih =>
    obtain ⟨k, v⟩ := hd
    by_cases hk : k = u
    · simp [eraseNode, hk, ih]
    · simp [eraseNode, hk, ih]

theorem listContains_iff (l : List Label) (a : Label) :
    l.contains a = true ↔ a ∈ l := by
  induction l with
  | nil => simp
  | cons h t ih => simp [ih]

theorem eraseAllNodes_eq_filter (bad : List Label) : ∀ (m : NodeMap),
    eraseAllNodes m bad = m.filter (fun p => !(bad.contains p.1)) := by
  induction bad with
  | nil => intro m; simp [eraseAllNodes]
  | cons v vs ih =>
    intro m
    simp only [eraseAllNodes]
    rw [ih, eraseNode_eq_filter, List.filter_filter]
    apply List.filter_congr
    intro p _
    by_cases h1 : p.1 = v
    · simp [h1]
    · by_cases h2 : p.1 ∈ vs
      · simp [h1, h2, (listContains_iff vs p.1).mpr h2]
      · have : vs.contains p.1 = false := by
          rw [Bool.eq_false_iff]
          intro hc
          exact h2 ((listContains_iff vs p.1).mp hc)
        simp [h1, h2, this]

theorem memNode_map_restrict (E : NodeMap) (v : Label) :
    memNode (E.map (fun p => (p.1,
      { p.2 with adj := p.2.adj.filter (fun w => memNode E w),
                 radj := p.2.radj.filter (fun w => memNode E w) }))) v = memNode E v := by
  have := memNode_restrictAdj E v
  unfold restrictAdj at this
  exact this

theorem restrictAdj_restrictAdj (E : NodeMap) :
    restrictAdj (restrictAdj E) = restrictAdj E := by
  unfold restrictAdj
  rw [List.map_map]
  apply List.map_congr_left
  intro p hp
  simp only [Function.comp_apply]
  simp only [memNode_map_restrict]
  simp [List.filter_filter]

theorem badNodes_map_preserving (md : Int) (f : (Label × VertexInfo) → Label × VertexInfo)
    (hf1 : ∀ p, (f p).1 = p.1) (hfd : ∀ p, (f p).2.dist = p.2.dist) :
    ∀ E : NodeMap, badNodes (E.map f) md = badNodes E md := by
  intro E
  unfold badNodes
  induction E with
  | nil => simp
  | cons p t ih =>
    simp only [List.map_cons, List.filter_cons, hfd p]
    by_cases hgt : distGt p.2.dist md = true
    · simp only [hgt, if_true, List.map_cons, hf1 p]
      rw [ih]
    · simp only [Bool.not_eq_true] at hgt
      simp only [hgt, Bool.false_eq_true, if_false]
      exact ih

theorem badNodes_restrictAdj (E : NodeMap) (md : Int) :
    badNodes (restrictAdj E) md = badNodes E md := by
  unfold restrictAdj
  exact badNodes_map_preserving md
    (fun p => (p.1, { p.2 with adj := p.2.adj.filter (fun v => memNode E v), radj := p.2.radj.filter (fun v => memNode E v) }))
    (fun p => rfl) (fun p => rfl) E

theorem badNodes_eraseAll_nil (m : NodeMap) (md : Int) :
    badNodes (eraseAllNodes m (badNodes m md)) md = [] := by
  rw [eraseAllNodes_eq_filter, List.eq_nil_iff_forall_not_mem]
  intro u
  rw [mem_badNodes]
  rintro ⟨inf, hmem, hgt⟩
  rw [List.mem_filter] at hmem
  obtain ⟨hm, hnc⟩ := hmem
  have hu : u ∈ badNodes m md := (mem_badNodes m md u).mpr ⟨inf, hm, hgt⟩
  simp_all [listContains_iff]

/-- C5: applying the Filter step twice with the same threshold gives the
same mapping as applying it once: the second application removes no node
and leaves every adjacency list unchanged. -/
theorem filterStep_idempotent (m : NodeMap) (md : Option Int) :
    filterStep (filterStep m md) md = filterStep m md := by
  rcases md with _ | mdv
  · rw [filterStep_eq, filterStep_eq]
    simp only [eraseAllNodes]
    exact restrictAdj_restrictAdj _
  · rw [filterStep_eq (filterStep m (some mdv)) (some mdv)]
    simp only
    rw [show filterStep m (some mdv)
        = restrictAdj (eraseAllNodes m (badNodes m mdv)) from filterStep_eq m (some mdv)]
    rw [badNodes_restrictAdj, badNodes_eraseAll_nil]
    simp only [eraseAllNodes]
    exact restrictAdj_restrictAdj _

/-! ### Extractor: ignore regions (claim C6) and the warning (claim C7) -/

/-- C6: while the ignore flag is set, declaration and edge markers are
no-ops and only a region-end marker whose name is in the ignore set clears
the flag; while the flag is clear, a region-start marker sets it exactly
when its name is in the ignore set, and region-end markers are no-ops. -/
theorem extract_ignore_region_semantics (o : Options) (p : String) :
    (∀ st : ExtractState, st.ignore_mode = true →
      ∀ lems thm, extractStep o p st (.depMarker lems thm) = st)
    ∧ (∀ st : ExtractState, st.ignore_mode = true →
      ∀ arg, extractStep o p st (.cmdMarker "label" arg) = st)
    ∧ (∀ st : ExtractState, st.ignore_mode = true →
      ∀ arg, extractStep o p st (.cmdMarker "begin" arg) = st)
    ∧ (∀ st : ExtractState, st.ignore_mode = true →
      ∀ arg, extractStep o p st (.cmdMarker "end" arg)
        = if o.ignore_envs.contains arg then { st with ignore_mode := false } else st)
    ∧ (∀ st : ExtractState, st.ignore_mode = false →
      ∀ arg, extractStep o p st (.cmdMarker "begin" arg)
        = if o.ignore_envs.contains arg then { st with ignore_mode := true } else st)
    ∧ (∀ st : ExtractState, st.ignore_mode = false →
      ∀ arg, extractStep o p st (.cmdMarker "end" arg) = st) := by
  refine ⟨?_, ?_, ?_, ?_, ?_, ?_⟩
  · intro st h lems thm
    simp [extractStep, h]
  · intro st h arg
    simp [extractStep, h]
  · intro st h arg
    simp [extractStep, h]
  · intro st h arg
    simp only [extractStep, h, if_true]
    cases hc : o.ignore_envs.contains arg <;> simp
  · intro st h arg
    simp only [extractStep, h, Bool.false_eq_true, if_false]
    cases hc : o.ignore_envs.contains arg <;> simp
  · intro st h arg
    simp [extractStep, h]

/-- Witness for C6 at a concrete ignoring state. -/
theorem extract_ignore_region_semantics_witness :
    extractStep defaultOptions "f.tex"
      ⟨"L", true, false, [], []⟩ (.depMarker "a,b" "") = ⟨"L", true, false, [], []⟩
    ∧ extractStep defaultOptions "f.tex"
      ⟨"L", true, false, [], []⟩ (.cmdMarker "label" "M") = ⟨"L", true, false, [], []⟩
    ∧ extractStep defaultOptions "f.tex"
      ⟨"L", true, false, [], []⟩ (.cmdMarker "end" "comment")
        = ⟨"L", false, false, [], []⟩
    ∧ extractStep defaultOptions "f.tex"
      ⟨"L", false, false, [], []⟩ (.cmdMarker "begin" "comment")
        = ⟨"L", true, false, [], []⟩ := by
  obtain ⟨h1, h2, h3, h4, h5, h6⟩ := extract_ignore_region_semantics defaultOptions "f.tex"
  refine ⟨h1 _ rfl "a,b" "", h2 _ rfl "M", ?_, ?_⟩
  · rw [h4 _ rfl "comment"]
    decide
  · rw [h5 _ rfl "comment"]
    decide

/-- The warning condition of one marker in a given state: a processed
edge marker with empty explicit target text while the current label is
also empty. -/
def emptyUseB (st : ExtractState) : Marker → Bool
  | .depMarker _ thm => !st.ignore_mode && (thm == "") && (st.curr_node == "")
  | .cmdMarker _ _ => false

/-- Whether some marker of the list fires the warning condition when the
list is processed starting from state `st`. -/
def anyEmptyUse (o : Options) (p : String) (st : ExtractState) : List Marker → Bool
  | [] => false
  | mk :: ms => emptyUseB st mk || anyEmptyUse o p (extractStep o p st mk) ms

theorem extractStep_warned (o : Options) (p : String) (st : ExtractState) (mk : Marker) :
    (extractStep o p st mk).empty_thm_warned
      = (st.empty_thm_warned || emptyUseB st mk) := by
  obtain ⟨cn, ig, wd, es, ws⟩ := st
  cases mk with
  | cmdMarker cmd arg =>
    simp only [extractStep, emptyUseB]
    cases ig <;> (repeat' split) <;> simp_all
  | depMarker lems thm =>
    simp only [extractStep, emptyUseB]
    cases ig
    · simp only [Bool.false_eq_true, if_false, Bool.not_false, Bool.true_and]
      cases ht : thm == ""
      · simp [ht]
      · cases hc : cn == ""
        · simp [ht, hc]
        · cases wd <;> simp [ht, hc]
    · simp

theorem extractStep_warnings (o : Options) (p : String) (st : ExtractState) (mk : Marker) :
    (extractStep o p st mk).warnings
      = st.warnings ++ (if emptyUseB st mk && !st.empty_thm_warned
                        then [emptyThmWarning p] else []) := by
  obtain ⟨cn, ig, wd, es, ws⟩ := st
  cases mk with
  | cmdMarker cmd arg =>
    simp only [extractStep, emptyUseB]
    cases ig <;> (repeat' split) <;> simp_all
  | depMarker lems thm =>
    simp only [extractStep, emptyUseB]
    cases ig
    · simp only [Bool.false_eq_true, if_false, Bool.not_false, Bool.true_and]
      cases ht : thm == ""
      · simp [ht]
      · cases hc : cn == ""
        · simp [ht, hc]
        · cases wd <;> simp [ht, hc]
    · simp

theorem extractFold_warned (o : Options) (p : String) (ms : List Marker) :
    ∀ st : ExtractState, (ms.foldl (extractStep o p) st).empty_thm_warned
      = (st.empty_thm_warned || anyEmptyUse o p st ms) := by
  induction ms with
  | nil => intro st; simp [anyEmptyUse]
  | cons mk ms ih =>
    intro st
    simp only [List.foldl_cons, anyEmptyUse]
    rw [ih, extractStep_warned, Bool.or_assoc]

theorem warn_append_aux (L : List String) (w a b : Bool) :
    ((if (a && !w) = true then L else []) ++ (if (!(w || a) && b) = true then L else []))
      = (if (!w && (a || b)) = true then L else []) := by
  cases w <;> cases a <;> cases b <;> simp

theorem extractFold_warnings (o : Options) (p : String) (ms : List Marker) :
    ∀ st : ExtractState, (ms.foldl (extractStep o p) st).warnings
      = st.warnings ++ (if !st.empty_thm_warned && anyEmptyUse o p st ms
                        then [emptyThmWarning p] else []) := by
  induction ms with
  | nil => intro st; simp [anyEmptyUse]
  | cons mk ms ih =>
    intro st
    simp only [List.foldl_cons, anyEmptyUse]
    rw [ih, extractStep_warnings, extractStep_warned, List.append_assoc]
    congr 1
    exact warn_append_aux _ _ _ _

/-- The per-document scan state without the shared edge accumulator. -/
def ctrlOf (st : ExtractState) : String × Bool × Bool × List String :=
  (st.curr_node, st.ignore_mode, st.empty_thm_warned, st.warnings)

theorem emptyUseB_ctrl (st st' : ExtractState) (mk : Marker)
    (h : ctrlOf st = ctrlOf st') : emptyUseB st mk = emptyUseB st' mk := by
  obtain ⟨cn, ig, wd, es, ws⟩ := st
  obtain ⟨cn', ig', wd', es', ws'⟩ := st'
  simp only [ctrlOf, Prod.mk.injEq] at h
  obtain ⟨h1, h2, h3, h4⟩ := h
  subst h1; subst h2; subst h3; subst h4
  cases mk <;> rfl

theorem extractStep_ctrl (o : Options) (p : String) (st st' : ExtractState) (mk : Marker)
    (h : ctrlOf st = ctrlOf st') :
    ctrlOf (extractStep o p st mk) = ctrlOf (extractStep o p st' mk) := by
  obtain ⟨cn, ig, wd, es, ws⟩ := st
  obtain ⟨cn', ig', wd', es', ws'⟩ := st'
  simp only [ctrlOf, Prod.mk.injEq] at h
  obtain ⟨h1, h2, h3, h4⟩ := h
  subst h1; subst h2; subst h3; subst h4
  cases mk with
  | cmdMarker cmd arg =>
    simp only [extractStep, ctrlOf]
    cases ig <;> (repeat' split) <;> simp_all
  | depMarker lems thm =>
    simp only [extractStep, ctrlOf]
    cases ig <;> (repeat' split) <;> simp_all

theorem anyEmptyUse_ctrl (o : Options) (p : String) (ms : List Marker) :
    ∀ st st' : ExtractState, ctrlOf st = ctrlOf st' →
      anyEmptyUse o p st ms = anyEmptyUse o p st' ms := by
  induction ms with
  | nil => intro st st' h; rfl
  | cons mk ms ih =>
    intro st st' h
    simp only [anyEmptyUse]
    rw [emptyUseB_ctrl st st' mk h, ih _ _ (extractStep_ctrl o p st st' mk h)]

/-- C7: within one `extract` call, the empty-current-label warning is
emitted at most once, exactly when some processed edge marker has empty
explicit target while the current label is empty (the per-step law gives
the exact marker: the first such one, since `empty_thm_warned` blocks
later ones); extraction continues with the empty string as target, and
the warned state is per call, independent of the shared edge
accumulator. -/
theorem extract_empty_thm_warning_once (o : Options) (p : String) (ms : List Marker)
    (edges0 : List (Label × Label)) :
    ((extract o p ms edges0).warnings
      = (if anyEmptyUse o p (initExtractState edges0) ms then [emptyThmWarning p] else []))
    ∧ (extract o p ms edges0).warnings.length ≤ 1
    ∧ ((extract o p ms edges0).empty_thm_warned
      = anyEmptyUse o p (initExtractState edges0) ms)
    ∧ ((extract o p ms edges0).warnings = (extract o p ms []).warnings)
    ∧ (∀ st : ExtractState, ∀ mk : Marker,
        (extractStep o p st mk).warnings
          = st.warnings ++ (if emptyUseB st mk && !st.empty_thm_warned
                            then [emptyThmWarning p] else []))
    ∧ (∀ st : ExtractState, ∀ lems : String, st.ignore_mode = false → st.curr_node = "" →
        (extractStep o p st (.depMarker lems "")).edges = appendEdges o "" lems st.edges) := by
  have hW := extractFold_warnings o p ms (initExtractState edges0)
  have hA := extractFold_warned o p ms (initExtractState edges0)
  have hc1 : (extract o p ms edges0).warnings
      = (if anyEmptyUse o p (initExtractState edges0) ms then [emptyThmWarning p] else []) := by
    rw [extract, hW]
    simp [initExtractState]
  refine ⟨hc1, ?_, ?_, ?_, extractStep_warnings o p, ?_⟩
  · rw [hc1]
    cases anyEmptyUse o p (initExtractState edges0) ms <;> simp
  · rw [extract, hA]
    simp [initExtractState]
  · have hW0 := extractFold_warnings o p ms (initExtractState [])
    have hc2 : (extract o p ms []).warnings
        = (if anyEmptyUse o p (initExtractState []) ms then [emptyThmWarning p] else []) := by
      rw [extract, hW0]
      simp [initExtractState]
    rw [hc1, hc2, anyEmptyUse_ctrl o p ms (initExtractState edges0) (initExtractState []) rfl]
  · intro st lems hig hcn
    obtain ⟨cn, ig, wd, es, ws⟩ := st
    simp only at hig hcn
    subst hig
    subst hcn
    simp only [extractStep]
    cases wd <;> simp

/-! ### Claim C10: comma-splitting never yields zero labels -/

theorem splitCharsAux_ne_nil (sep : Char) : ∀ (cs acc : List Char),
    splitCharsAux sep cs acc ≠ []
  | [], acc => by simp [splitCharsAux]
  | c :: cs, acc => by
    simp only [splitCharsAux]
    split
    · simp
    · exact splitCharsAux_ne_nil sep cs _

theorem pySplit_ne_nil (s : String) (sep : Char) : pySplit s sep ≠ [] := by
  unfold pySplit
  intro h
  rw [List.map_eq_nil_iff] at h
  exact splitCharsAux_ne_nil sep _ _ h

/-- C10: splitting the dependency text on commas never produces zero
labels; an edge marker with empty dependency text therefore emits exactly
one edge whose dependency label is the empty string (when no configured
prefix excludes it), and an empty-string-labelled node can appear in the
final graph. -/
theorem edge_marker_split_nonempty :
    (∀ lems : String, pySplit lems ',' ≠ [])
    ∧ pySplit "" ',' = [""]
    ∧ (∀ (o : Options), o.exclude_prefixes = [] → ∀ (p : String) (st : ExtractState)
        (thm : String), st.ignore_mode = false → (thm == "") = false →
        (extractStep o p st (.depMarker "" thm)).edges = st.edges ++ [(thm, "")])
    ∧ memNode (process [("A", "")] none) "" = true := by
  refine ⟨fun lems => pySplit_ne_nil lems ',', rfl, ?_, ?_⟩
  · intro o hexc p st thm hig hthm
    obtain ⟨cn, ig, wd, es, ws⟩ := st
    simp only at hig
    subst hig
    simp only [extractStep, hthm, Bool.false_eq_true, if_false]
    simp [appendEdges, pySplit, splitCharsAux, startsWithAny, hexc]
  · simp [process, buildNodes, buildNodesAux, addEdge, getOrInsert, lookupNode, setNode,
      bfs, bfsInit, bfsLoop, relaxNeighbors, filterStep, badNodes, eraseAllNodes,
      restrictAdj, memNode, VertexInfo.init]

/-- Witness for C10 at a concrete state with a nonempty explicit target. -/
theorem edge_marker_split_nonempty_witness :
    (extractStep defaultOptions "f.tex" (initExtractState []) (.depMarker "" "T")).edges
      = [("T", "")] := by
  have h := edge_marker_split_nonempty.2.2.1 defaultOptions rfl "f.tex"
    (initExtractState []) "T" rfl rfl
  simpa [initExtractState] using h

/-- Witness for C7: two empty-empty edge markers, one warning, and the
step law at a concrete state. -/
theorem extract_empty_thm_warning_once_witness :
    (extract defaultOptions "doc.tex" [.depMarker "B" "", .depMarker "C" ""] []).warnings
      = [emptyThmWarning "doc.tex"]
    ∧ (extractStep defaultOptions "doc.tex" (initExtractState []) (.depMarker "B" "")).edges
      = appendEdges defaultOptions "" "B" [] := by
  obtain ⟨h1, h2, h3, h4, h5, h6⟩ := extract_empty_thm_warning_once defaultOptions "doc.tex"
    [.depMarker "B" "", .depMarker "C" ""] []
  constructor
  · rw [h1]
    decide
  · exact h6 (initExtractState []) "B" rfl rfl

/-! ### Serializer claims C9 and C8 -/

/-- C9: for every requested format other than `tikz`, the Serializer
raises the fatal `NotImplementedError` and emits no output lines at all
(there is no partial diagram output). -/
theorem output_unsupported_format_errors (nodes : NodeMap) (format : String)
    (o : Options) (raw_options : List String) (h : (format == "tikz") = false) :
    output nodes format o raw_options
      = .error ("format " ++ "'" ++ format ++ "'" ++ " is not supported")
    ∧ ∀ lines : List String, output nodes format o raw_options ≠ .ok lines := by
  constructor
  · simp only [output, h, Bool.false_eq_true, if_false]
  · intro lines
    simp only [output, h, Bool.false_eq_true, if_false]
    intro hcontra
    cases hcontra

/-- Witness for C9 at the format `dot`. -/
theorem output_unsupported_format_errors_witness :
    output [] "dot" defaultOptions defaultRawOptions
      = .error ("format " ++ "'" ++ "dot" ++ "'" ++ " is not supported") :=
  (output_unsupported_format_errors [] "dot" defaultOptions defaultRawOptions rfl).1

/-- C8: Scenario 1 — one declaration marker for `A` followed by one edge
marker naming dependency `B` with empty explicit target: the target
resolves to the current label `A`, exactly the edge `(A, B)` is produced,
and the tikz output has node-declaration lines for `A` and `B` and
exactly one edge line. -/
theorem pipeline_scenario_single_edge :
    (extract defaultOptions "f.tex" [.cmdMarker "label" "A", .depMarker "B" ""] []).edges
      = [("A", "B")]
    ∧ ∃ lines : List String,
        output (process [("A", "B")] none) "tikz" defaultOptions defaultRawOptions = .ok lines
        ∧ "\"A\"/\"\\cref\x7bA\x7d\";" ∈ lines
        ∧ "\"B\"/\"\\cref\x7bB\x7d\";" ∈ lines
        ∧ lines.count "\"A\" -> \"B\";" = 1 := by
  have hproc : process [("A", "B")] none =
      [("A", ⟨["B"], [], some 0, true⟩), ("B", ⟨[], ["A"], some 1, true⟩)] := by
    simp [process, buildNodes, buildNodesAux, addEdge, getOrInsert, lookupNode, setNode,
      bfs, bfsInit, bfsLoop, relaxNeighbors, filterStep, badNodes, eraseAllNodes,
      restrictAdj, memNode, VertexInfo.init]
  refine ⟨by decide, ?_⟩
  rw [hproc]
  refine ⟨_, rfl, ?_, ?_, ?_⟩ <;> decide

/-! ### DistanceAnalyzer correctness (claim C2)

The BFS loop is verified against the graph of the input mapping: `reachN
m0 n v` says `v` is reachable from the root set (nodes with empty
backward adjacency) in exactly `n` forward hops.  The loop invariant
follows the standard BFS argument: distances are sound upper-bound
witnesses, visited nodes carry their exact minimum distance, and the
queue holds the frontier in non-decreasing order of distance (among first
occurrences of unvisited nodes) with spread at most one level. -/

/-- The stored distance of a label (`None` when absent). -/
def dOf (m : NodeMap) (u : Label) : Option Nat :=
  match lookupNode m u with
  | some i => i.dist
  | none => none

/-- The visited flag of a label (`False` when absent). -/
def visOf (m : NodeMap) (u : Label) : Bool :=
  match lookupNode m u with
  | some i => i.visited
  | none => false

/-- The distance with default `0`; every use is guarded by `isSome`. -/
def dval (m : NodeMap) (u : Label) : Nat := (dOf m u).getD 0

/-- `m` has the same keys and adjacency structure as `m0` (only `dist`
and `visited` may differ). -/
def SameGraph (m0 m : NodeMap) : Prop :=
  ∀ u, (lookupNode m u).map (fun i => (i.adj, i.radj))
     = (lookupNode m0 u).map (fun i => (i.adj, i.radj))

/-- Every forward-adjacency member has a node (true of built mappings). -/
def Closed (m : NodeMap) : Prop :=
  ∀ u inf, lookupNode m u = some inf → ∀ v ∈ inf.adj, (lookupNode m v).isSome = true

/-- All distances unset and nothing visited (true just after building). -/
def Fresh (m : NodeMap) : Prop :=
  ∀ u inf, lookupNode m u = some inf → inf.dist = none ∧ inf.visited = false

/-- Reachability from the root set in exactly `n` forward hops. -/
def reachN (m : NodeMap) : Nat → Label → Prop
  | 0, v => ∃ inf, lookupNode m v = some inf ∧ inf.radj = []
  | n + 1, v => ∃ u inf, lookupNode m u = some inf ∧ reachN m n u ∧ v ∈ inf.adj

/-- Queue ordering: among first occurrences of unvisited nodes, stored
distances are non-decreasing along the queue. -/
def QOrd (m : NodeMap) (q : List Label) : Prop :=
  ∀ (q1 : List Label) (u : Label) (q2 : List Label) (w : Label) (q3 : List Label),
    q = q1 ++ u :: q2 ++ w :: q3 → u ∉ q1 → w ∉ q1 ++ u :: q2 →
    visOf m u = false → visOf m w = false → dval m u ≤ dval m w

/-- The outer loop invariant of `bfs`, relative to the base mapping `m0`. -/
structure BfsInv (m0 m : NodeMap) (q : List Label) : Prop where
  sameGraph : SameGraph m0 m
  sound : ∀ u d, dOf m u = some d → reachN m0 d u
  visMin : ∀ u, visOf m u = true →
    ∃ d, dOf m u = some d ∧ reachN m0 d u ∧ (∀ k, reachN m0 k u → d ≤ k)
  qDist : ∀ u ∈ q, (dOf m u).isSome = true
  qOrd : QOrd m q
  spread : ∀ u ∈ q, ∀ w ∈ q, visOf m u = false → visOf m w = false →
    dval m u ≤ dval m w + 1
  distInQ : ∀ u, (dOf m u).isSome = true → visOf m u = true ∨ u ∈ q
  visClosed : ∀ x infx, visOf m x = true → lookupNode m0 x = some infx →
    ∀ v ∈ infx.adj, (dOf m v).isSome = true ∧ dval m v ≤ dval m x + 1
      ∧ (visOf m v = true ∨ v ∈ q)
  roots : ∀ u inf, lookupNode m0 u = some inf → inf.radj = [] → dOf m u = some 0

/-- The inner (`relaxNeighbors`) invariant: like `BfsInv` but the freshly
visited node `u` is exempt from `visClosed` (its neighbours are being
relaxed now), and all unvisited queue entries sit within the `[du, du+1]`
band of `u`'s level. -/
structure MidInv (m0 : NodeMap) (u0 : Label) (du : Nat) (m : NodeMap) (q : List Label) : Prop where
  sameGraph : SameGraph m0 m
  sound : ∀ u d, dOf m u = some d → reachN m0 d u
  visMin : ∀ u, visOf m u = true →
    ∃ d, dOf m u = some d ∧ reachN m0 d u ∧ (∀ k, reachN m0 k u → d ≤ k)
  qDist : ∀ u ∈ q, (dOf m u).isSome = true
  qOrd : QOrd m q
  spread : ∀ u ∈ q, ∀ w ∈ q, visOf m u = false → visOf m w = false →
    dval m u ≤ dval m w + 1
  distInQ : ∀ u, (dOf m u).isSome = true → visOf m u = true ∨ u ∈ q
  visClosed : ∀ x infx, visOf m x = true → x ≠ u0 → lookupNode m0 x = some infx →
    ∀ v ∈ infx.adj, (dOf m v).isSome = true ∧ dval m v ≤ dval m x + 1
      ∧ (visOf m v = true ∨ v ∈ q)
  roots : ∀ u inf, lookupNode m0 u = some inf → inf.radj = [] → dOf m u = some 0
  band : ∀ x ∈ q, visOf m x = false → du ≤ dval m x ∧ dval m x ≤ du + 1
  uVis : visOf m u0 = true
  uDist : dOf m u0 = some du

/-- First-occurrence decomposition of a list member. -/
theorem exists_first_split {x : Label} : ∀ {l : List Label}, x ∈ l →
    ∃ l1 l2, l = l1 ++ x :: l2 ∧ x ∉ l1 := by
  intro l
  induction l with
  | nil => intro h; cases h
  | cons a t ih =>
    intro h
    by_cases hax : a = x
    · exact ⟨[], t, by rw [hax]; rfl, by simp⟩
    · rcases List.mem_cons.mp h with h1 | h1
      · exact absurd h1.symm hax
      · obtain ⟨l1, l2, heq, hnm⟩ := ih h1
        exact ⟨a :: l1, l2, by rw [heq]; rfl, by
          simp only [List.mem_cons]
          rintro (h2 | h2)
          · exact hax h2.symm
          · exact hnm h2⟩

theorem dOf_isSome_lookup {m : NodeMap} {u : Label} (h : (dOf m u).isSome = true) :
    ∃ inf, lookupNode m u = some inf := by
  unfold dOf at h
  rcases hl : lookupNode m u with _ | inf
  · rw [hl] at h
    simp at h
  · exact ⟨inf, rfl⟩

theorem dOf_setNode_self (m : NodeMap) (u : Label) (inf : VertexInfo) :
    dOf (setNode m u inf) u = inf.dist := by
  unfold dOf
  rw [lookupNode_setNode_self]

theorem dOf_setNode_other (m : NodeMap) (u w : Label) (inf : VertexInfo) (h : w ≠ u) :
    dOf (setNode m u inf) w = dOf m w := by
  unfold dOf
  rw [lookupNode_setNode_other _ _ _ _ h]

theorem visOf_setNode_self (m : NodeMap) (u : Label) (inf : VertexInfo) :
    visOf (setNode m u inf) u = inf.visited := by
  unfold visOf
  rw [lookupNode_setNode_self]

theorem visOf_setNode_other (m : NodeMap) (u w : Label) (inf : VertexInfo) (h : w ≠ u) :
    visOf (setNode m u inf) w = visOf m w := by
  unfold visOf
  rw [lookupNode_setNode_other _ _ _ _ h]

theorem sameGraph_setNode {m0 m : NodeMap} (h : SameGraph m0 m) {u : Label}
    {inf inf' : VertexInfo} (hl : lookupNode m u = some inf)
    (ha : inf'.adj = inf.adj) (hr : inf'.radj = inf.radj) :
    SameGraph m0 (setNode m u inf') := by
  intro w
  by_cases hw : w = u
  · subst hw
    rw [lookupNode_setNode_self]
    have h2 := h w
    rw [hl] at h2
    rw [← h2]
    simp [ha, hr]
  · rw [lookupNode_setNode_other _ _ _ _ hw]
    exact h w

theorem setNode_self_eq {m : NodeMap} {u : Label} {inf : VertexInfo}
    (h : lookupNode m u = some inf) : setNode m u inf = m := by
  induction m with
  | nil => simp [lookupNode] at h
  | cons hd t ih =>
    obtain ⟨k, v⟩ := hd
    by_cases hk : k = u
    · subst hk
      simp [lookupNode] at h
      simp [setNode, h]
    · simp only [lookupNode, hk, if_false] at h
      simp [setNode, hk, ih h]

theorem bfsInit_lookup (m : NodeMap) (u : Label) :
    lookupNode (bfsInit m).1 u = (lookupNode m u).map
      (fun i => if i.radj = [] then { i with dist := some 0 } else i) := by
  induction m with
  | nil => simp [bfsInit, lookupNode]
  | cons hd t ih =>
    obtain ⟨k, v⟩ := hd
    simp only [bfsInit]
    by_cases hr : v.radj = []
    · by_cases hk : k = u
      · subst hk
        simp [lookupNode, hr]
      · simp [lookupNode, hk, hr, ih]
    · by_cases hk : k = u
      · subst hk
        simp [lookupNode, hr]
      · simp [lookupNode, hk, hr, ih]

theorem bfsInit_queue_subset (m : NodeMap) : ∀ u ∈ (bfsInit m).2, u ∈ nodeKeys m := by
  induction m with
  | nil => simp [bfsInit, nodeKeys]
  | cons hd t ih =>
    obtain ⟨k, v⟩ := hd
    intro u hu
    simp only [bfsInit] at hu
    by_cases hr : v.radj = []
    · rw [if_pos hr] at hu
      rcases List.mem_cons.mp hu with h1 | h1
      · simp [nodeKeys, h1]
      · simp only [nodeKeys, List.map_cons, List.mem_cons]
        exact Or.inr (ih u h1)
    · rw [if_neg hr] at hu
      simp only [nodeKeys, List.map_cons, List.mem_cons]
      exact Or.inr (ih u hu)

theorem lookupNode_none_iff (m : NodeMap) (u : Label) :
    lookupNode m u = none ↔ u ∉ nodeKeys m := by
  induction m with
  | nil => simp [lookupNode, nodeKeys]
  | cons hd t ih =>
    obtain ⟨k, v⟩ := hd
    by_cases hk : k = u
    · subst hk
      simp [lookupNode, nodeKeys]
    · have hnk : nodeKeys ((k, v) :: t) = k :: nodeKeys t := rfl
      simp only [lookupNode, hk, if_false, hnk, ih]
      constructor
      · intro h1 h2
        rcases List.mem_cons.mp h2 with h3 | h3
        · exact hk h3.symm
        · exact h1 h3
      · intro h1 h2
        exact h1 (List.mem_cons_of_mem _ h2)

theorem bfsInit_queue_mem (m : NodeMap) (hN : NodupKeys m) (u : Label) :
    u ∈ (bfsInit m).2 ↔ ∃ inf, lookupNode m u = some inf ∧ inf.radj = [] := by
  induction m with
  | nil => simp [bfsInit, lookupNode]
  | cons hd t ih =>
    obtain ⟨k, v⟩ := hd
    obtain ⟨hk0, ht⟩ : k ∉ nodeKeys t ∧ NodupKeys t := by
      simpa [NodupKeys, nodeKeys] using hN
    have iht := ih ht
    simp only [bfsInit]
    by_cases hk : k = u
    · subst hk
      by_cases hr : v.radj = []
      · simp [lookupNode, hr]
      · rw [if_neg hr]
        simp only [lookupNode, if_pos rfl]
        constructor
        · intro hu
          exact absurd (bfsInit_queue_subset t k hu) hk0
        · rintro ⟨inf, hinf, hradj⟩
          cases hinf
          exact absurd hradj hr
    · have hlk : ∀ r, lookupNode ((k, r) :: t) u = lookupNode t u := by
        intro r
        simp [lookupNode, hk]
      by_cases hr : v.radj = []
      · rw [if_pos hr]
        simp only [List.mem_cons]
        rw [hlk]
        constructor
        · rintro (h1 | h1)
          · exact absurd h1.symm hk
          · exact iht.mp h1
        · intro h1
          exact Or.inr (iht.mpr h1)
      · rw [if_neg hr, hlk v]
        exact iht

theorem bfsInit_inv (m0 : NodeMap) (hF : Fresh m0) (hN : NodupKeys m0) :
    BfsInv m0 (bfsInit m0).1 (bfsInit m0).2 := by
  have hvis : ∀ u, visOf (bfsInit m0).1 u = false := by
    intro u
    unfold visOf
    rw [bfsInit_lookup]
    rcases hl : lookupNode m0 u with _ | i
    · rfl
    · have := (hF u i hl).2
      by_cases hr : i.radj = [] <;> simp [hr, this]
  have hd : ∀ u, dOf (bfsInit m0).1 u
      = (if ∃ inf, lookupNode m0 u = some inf ∧ inf.radj = [] then some 0 else none) := by
    intro u
    unfold dOf
    rw [bfsInit_lookup]
    rcases hl : lookupNode m0 u with _ | i
    · simp
    · have := (hF u i hl).1
      by_cases hr : i.radj = [] <;> simp [hr, this]
  constructor
  · intro u
    rw [bfsInit_lookup]
    rcases hl : lookupNode m0 u with _ | i
    · rfl
    · by_cases hr : i.radj = [] <;> simp [hr]
  · intro u d hdu
    rw [hd u] at hdu
    by_cases hx : ∃ inf, lookupNode m0 u = some inf ∧ inf.radj = []
    · rw [if_pos hx] at hdu
      cases hdu
      exact hx
    · rw [if_neg hx] at hdu
      cases hdu
  · intro u hv
    rw [hvis u] at hv
    cases hv
  · intro u hu
    rw [hd u, if_pos ((bfsInit_queue_mem m0 hN u).mp hu)]
    rfl
  · intro q1 x q2 w q3 heq hx hw hvx hvw
    have hxq : x ∈ (bfsInit m0).2 := by
      rw [heq]
      simp
    have : dval (bfsInit m0).1 x = 0 := by
      unfold dval
      rw [hd x, if_pos ((bfsInit_queue_mem m0 hN x).mp hxq)]
      rfl
    rw [this]
    exact Nat.zero_le _
  · intro x hx w hw hvx hvw
    have : dval (bfsInit m0).1 x = 0 := by
      unfold dval
      rw [hd x, if_pos ((bfsInit_queue_mem m0 hN x).mp hx)]
      rfl
    rw [this]
    exact Nat.zero_le _
  · intro u hu
    rw [hd u] at hu
    by_cases hx : ∃ inf, lookupNode m0 u = some inf ∧ inf.radj = []
    · exact Or.inr ((bfsInit_queue_mem m0 hN u).mpr hx)
    · rw [if_neg hx] at hu
      simp at hu
  · intro x infx hvx
    rw [hvis x] at hvx
    cases hvx
  · intro u inf hl hr
    rw [hd u, if_pos ⟨inf, hl, hr⟩]

/-- Behind an unvisited head with distance `du`, every unvisited queue
entry has distance within `[du, du + 1]`. -/
theorem pop_range {m0 m : NodeMap} {u : Label} {q' : List Label} {du : Nat}
    (inv : BfsInv m0 m (u :: q')) (hvu : visOf m u = false) (hdu : dOf m u = some du) :
    ∀ x ∈ q', visOf m x = false → du ≤ dval m x ∧ dval m x ≤ du + 1 := by
  intro x hx hvx
  have hdvu : dval m u = du := by simp [dval, hdu]
  constructor
  · by_cases hxu : x = u
    · subst hxu
      rw [hdvu]
    · obtain ⟨l1, l2, heq, hnm⟩ := exists_first_split hx
      have h := inv.qOrd [] u l1 x l2 (by rw [heq]; rfl) (by simp)
        (by
          simp only [List.nil_append, List.mem_cons]
          rintro (h1 | h1)
          · exact hxu h1
          · exact hnm h1) hvu hvx
      rwa [hdvu] at h
  · have h := inv.spread x (List.mem_cons_of_mem _ hx) u (List.mem_cons_self _ _) hvx hvu
    rwa [hdvu] at h

/-- The classic BFS head-minimality: the distance of an unvisited head is
the exact minimum hop count from the root set. -/
theorem head_min {m0 m : NodeMap} {u : Label} {q' : List Label} {du : Nat}
    (inv : BfsInv m0 m (u :: q')) (hvu : visOf m u = false) (hdu : dOf m u = some du) :
    ∀ k, reachN m0 k u → du ≤ k := by
  have hdvu : dval m u = du := by simp [dval, hdu]
  have P : ∀ k, ∀ w, reachN m0 k w →
      visOf m w = true ∨ (visOf m w = false ∧ w ∈ u :: q' ∧ dval m w ≤ k) ∨ du ≤ k := by
    intro k
    induction k with
    | zero =>
      intro w hw
      obtain ⟨inf, hl, hr⟩ := hw
      have hd0 := inv.roots w inf hl hr
      rcases hvw : visOf m w with _ | _
      · rcases inv.distInQ w (by rw [hd0]; rfl) with h | h
        · rw [hvw] at h
          cases h
        · exact Or.inr (Or.inl ⟨rfl, h, by simp [dval, hd0]⟩)
      · exact Or.inl rfl
    | succ k ih =>
      intro w hw
      obtain ⟨x, infx, hlx, hrx, hwadj⟩ := hw
      rcases ih x hrx with hx | ⟨hvx, hxq, hdx⟩ | hk
      · obtain ⟨dx, hdxe, hreach, hmin⟩ := inv.visMin x hx
        have hdxk : dx ≤ k := hmin k hrx
        obtain ⟨hsome, hle, hvq⟩ := inv.visClosed x infx hx hlx w hwadj
        rcases hvw : visOf m w with _ | _
        · refine Or.inr (Or.inl ⟨rfl, ?_, ?_⟩)
          · rcases hvq with h | h
            · rw [hvw] at h
              cases h
            · exact h
          · have hdvx : dval m x = dx := by simp [dval, hdxe]
            rw [hdvx] at hle
            omega
        · exact Or.inl rfl
      · by_cases hxu : x = u
        · subst hxu
          rw [hdvu] at hdx
          exact Or.inr (Or.inr (by omega))
        · have hxq' : x ∈ q' := by
            rcases List.mem_cons.mp hxq with h1 | h1
            · exact absurd h1 hxu
            · exact h1
          have hlow := (pop_range inv hvu hdu x hxq' hvx).1
          exact Or.inr (Or.inr (by omega))
      · exact Or.inr (Or.inr (by omega))
  intro k hk
  rcases P k u hk with h | ⟨_, _, hd⟩ | h
  · rw [hvu] at h
    cases h
  · rw [hdvu] at hd
    exact hd
  · exact h

theorem lookupNode_append_some {m : NodeMap} {u : Label} {inf : VertexInfo}
    (h : lookupNode m u = some inf) (l : NodeMap) : lookupNode (m ++ l) u = some inf := by
  induction m with
  | nil => simp [lookupNode] at h
  | cons hd t ih =>
    obtain ⟨k, v⟩ := hd
    by_cases hk : k = u
    · subst hk
      simp only [lookupNode, if_pos rfl] at h ⊢
      exact h
    · simp only [lookupNode, hk, if_false, List.cons_append] at h ⊢
      exact ih h

/-- A distance at most `du + 1` is never overwritten by the relaxation
loop at level `du` (the loop only lowers distances above `du + 1` and
sets unset ones). -/
theorem relax_dOf_mono (du : Nat) : ∀ (vs : List Label) (m : NodeMap) (q : List Label)
    (x : Label) (d : Nat), dOf m x = some d → d ≤ du + 1 →
    dOf (relaxNeighbors du vs m q).1 x = some d := by
  intro vs
  induction vs with
  | nil => intro m q x d hd _; simpa [relaxNeighbors] using hd
  | cons v vs ih =>
    intro m q x d hd hle
    rcases hlv : lookupNode m v with _ | vinf
    · have hg : getOrInsert m v = (VertexInfo.init, m ++ [(v, VertexInfo.init)]) := by
        unfold getOrInsert
        rw [hlv]
      simp only [relaxNeighbors, hg]
      have hxv : x ≠ v := by
        intro hxv
        subst hxv
        unfold dOf at hd
        simp [hlv] at hd
      have hd2 : dOf (m ++ [(v, VertexInfo.init)]) x = some d := by
        unfold dOf at hd ⊢
        rcases hl : lookupNode m x with _ | i
        · simp [hl] at hd
        · rw [lookupNode_append_some hl]
          simp only [hl] at hd
          exact hd
      have hd3 : dOf (setNode (m ++ [(v, VertexInfo.init)]) v
          { VertexInfo.init with dist := some (du + 1) }) x = some d := by
        rw [dOf_setNode_other _ _ _ _ hxv]
        exact hd2
      exact ih _ _ x d hd3 hle
    · have hg : getOrInsert m v = (vinf, m) := by
        unfold getOrInsert
        rw [hlv]
      simp only [relaxNeighbors, hg]
      by_cases hvis : vinf.visited
      · rw [if_pos hvis]
        exact ih _ _ x d hd hle
      · rw [if_neg hvis]
        rcases hvd : vinf.dist with _ | dv
        · simp only
          by_cases hxv : x = v
          · subst hxv
            unfold dOf at hd
            simp [hlv, hvd] at hd
          · have hd3 : dOf (setNode m v { vinf with dist := some (du + 1) }) x = some d := by
              rw [dOf_setNode_other _ _ _ _ hxv]
              exact hd
            exact ih _ _ x d hd3 hle
        · simp only
          by_cases hlt : du + 1 < dv
          · rw [if_pos hlt]
            by_cases hxv : x = v
            · subst hxv
              unfold dOf at hd
              simp [hlv, hvd] at hd
              omega
            · have hd3 : dOf (setNode m v { vinf with dist := some (du + 1) }) x = some d := by
                rw [dOf_setNode_other _ _ _ _ hxv]
                exact hd
              exact ih _ _ x d hd3 hle
          · rw [if_neg hlt]
            rw [setNode_self_eq hlv]
            exact ih _ _ x d hd hle

theorem relax_visOf (du : Nat) : ∀ (vs : List Label) (m : NodeMap) (q : List Label)
    (x : Label), visOf (relaxNeighbors du vs m q).1 x = visOf m x := by
  intro vs
  induction vs with
  | nil => intro m q x; simp [relaxNeighbors]
  | cons v vs ih =>
    intro m q x
    rcases hlv : lookupNode m v with _ | vinf
    · have hg : getOrInsert m v = (VertexInfo.init, m ++ [(v, VertexInfo.init)]) := by
        unfold getOrInsert
        rw [hlv]
      simp only [relaxNeighbors, hg, VertexInfo.init, Bool.false_eq_true, if_false]
      rw [ih]
      by_cases hxv : x = v
      · subst hxv
        rw [visOf_setNode_self]
        unfold visOf
        rw [hlv]
      · rw [visOf_setNode_other _ _ _ _ hxv]
        unfold visOf
        have hvx : ¬(v = x) := fun h => hxv h.symm
        rcases hl : lookupNode m x with _ | i
        · rw [lookupNode_append_of_none hl]
          simp [lookupNode, hvx]
        · rw [lookupNode_append_some hl]
    · have hg : getOrInsert m v = (vinf, m) := by
        unfold getOrInsert
        rw [hlv]
      simp only [relaxNeighbors, hg]
      by_cases hvis : vinf.visited
      · rw [if_pos hvis]
        exact ih _ _ x
      · rw [if_neg hvis]
        rcases hvd : vinf.dist with _ | dv
        · simp only
          rw [ih]
          by_cases hxv : x = v
          · subst hxv
            rw [visOf_setNode_self]
            unfold visOf
            rw [hlv]
          · rw [visOf_setNode_other _ _ _ _ hxv]
        · simp only
          by_cases hlt : du + 1 < dv
          · rw [if_pos hlt, ih]
            by_cases hxv : x = v
            · subst hxv
              rw [visOf_setNode_self]
              unfold visOf
              rw [hlv]
            · rw [visOf_setNode_other _ _ _ _ hxv]
          · rw [if_neg hlt, setNode_self_eq hlv]
            exact ih _ _ x

theorem relax_queue_extends (du : Nat) : ∀ (vs : List Label) (m : NodeMap) (q : List Label)
    (x : Label), x ∈ q → x ∈ (relaxNeighbors du vs m q).2 := by
  intro vs
  induction vs with
  | nil => intro m q x hx; simpa [relaxNeighbors] using hx
  | cons v vs ih =>
    intro m q x hx
    rcases hlv : lookupNode m v with _ | vinf
    · have hg : getOrInsert m v = (VertexInfo.init, m ++ [(v, VertexInfo.init)]) := by
        unfold getOrInsert
        rw [hlv]
      simp only [relaxNeighbors, hg, VertexInfo.init, Bool.false_eq_true, if_false]
      exact ih _ _ x (by simp [hx])
    · have hg : getOrInsert m v = (vinf, m) := by
        unfold getOrInsert
        rw [hlv]
      simp only [relaxNeighbors, hg]
      by_cases hvis : vinf.visited
      · rw [if_pos hvis]
        exact ih _ _ x hx
      · rw [if_neg hvis]
        rcases hvd : vinf.dist with _ | dv
        · simp only
          exact ih _ _ x (by simp [hx])
        · simp only
          by_cases hlt : du + 1 < dv
          · rw [if_pos hlt]
            exact ih _ _ x (by simp [hx])
          · rw [if_neg hlt]
            exact ih _ _ x (by simp [hx])

theorem append_singleton_cases {l : List Label} {v : Label} {a : List Label} {w : Label}
    {b : List Label} (h : l ++ [v] = a ++ w :: b) :
    (b = [] ∧ w = v ∧ l = a) ∨ (∃ b', b = b' ++ [v] ∧ l = a ++ w :: b') := by
  rcases List.eq_nil_or_concat b with rfl | ⟨b', y, rfl⟩
  · left
    have h2 := List.append_inj' h (by simp)
    exact ⟨rfl, by simpa using h2.2.symm, h2.1⟩
  · right
    have h3 : l ++ [v] = (a ++ w :: b') ++ [y] := by
      rw [h]
      simp
    have h2 := List.append_inj' h3 (by simp)
    refine ⟨b', ?_, h2.1⟩
    have : v = y := by simpa using h2.2
    rw [this]
    simp

theorem midinv_push_stale {m0 : NodeMap} {u0 : Label} {du : Nat} {m : NodeMap}
    {q : List Label} {v : Label} (hI : MidInv m0 u0 du m q) (hv : v ∈ q) :
    MidInv m0 u0 du m (q ++ [v]) := by
  have hmem : ∀ x ∈ q ++ [v], x ∈ q := by
    intro x hx
    rcases List.mem_append.mp hx with h | h
    · exact h
    · rw [List.mem_singleton.mp h]
      exact hv
  refine ⟨hI.sameGraph, hI.sound, hI.visMin, ?_, ?_, ?_, ?_, ?_, hI.roots, ?_, hI.uVis, hI.uDist⟩
  · intro x hx
    exact hI.qDist x (hmem x hx)
  · intro q1 x q2 w q3 heq hx hw hvx hvw
    have heq2 : q ++ [v] = (q1 ++ x :: q2) ++ w :: q3 := by
      rw [heq]
    rcases append_singleton_cases heq2 with ⟨hb, hwv, hq⟩ | ⟨q3', hb, hq⟩
    · exfalso
      apply hw
      rw [← hq]
      subst hwv
      exact hv
    · exact hI.qOrd q1 x q2 w q3' (by rw [hq]) hx hw hvx hvw
  · intro x hx w hw hvx hvw
    exact hI.spread x (hmem x hx) w (hmem w hw) hvx hvw
  · intro x hx
    rcases hI.distInQ x hx with h | h
    · exact Or.inl h
    · exact Or.inr (List.mem_append_left _ h)
  · intro x infx hvx hxu hlx w hw
    obtain ⟨h1, h2, h3⟩ := hI.visClosed x infx hvx hxu hlx w hw
    refine ⟨h1, h2, ?_⟩
    rcases h3 with h | h
    · exact Or.inl h
    · exact Or.inr (List.mem_append_left _ h)
  · intro x hx hvx
    exact hI.band x (hmem x hx) hvx

theorem midinv_push_fresh {m0 : NodeMap} {u0 : Label} {du : Nat} {m : NodeMap}
    {q : List Label} {v : Label} {vinf : VertexInfo} (hI : MidInv m0 u0 du m q)
    (hlv : lookupNode m v = some vinf) (hvv : vinf.visited = false)
    (hvd : vinf.dist = none) (hreach : reachN m0 (du + 1) v) :
    MidInv m0 u0 du (setNode m v { vinf with dist := some (du + 1) }) (q ++ [v]) := by
  have hdOfv : dOf m v = none := by
    unfold dOf
    simp only [hlv]
    exact hvd
  have hvisv : visOf m v = false := by
    unfold visOf
    simp only [hlv]
    exact hvv
  have hvq : v ∉ q := by
    intro hmem
    have := hI.qDist v hmem
    rw [hdOfv] at this
    cases this
  have hneq : ∀ x ∈ q, x ≠ v := fun x hx hxv => hvq (hxv ▸ hx)
  have hdv' : dOf (setNode m v { vinf with dist := some (du + 1) }) v = some (du + 1) := by
    rw [dOf_setNode_self]
  have hvv' : visOf (setNode m v { vinf with dist := some (du + 1) }) v = false := by
    rw [visOf_setNode_self]
    exact hvv
  have hu0v : u0 ≠ v := by
    intro h
    have := hI.uVis
    rw [h, hvisv] at this
    cases this
  have hdO : ∀ x, x ≠ v → dOf (setNode m v { vinf with dist := some (du + 1) }) x = dOf m x :=
    fun x hx => dOf_setNode_other m v x _ hx
  have hvO : ∀ x, x ≠ v → visOf (setNode m v { vinf with dist := some (du + 1) }) x = visOf m x :=
    fun x hx => visOf_setNode_other m v x _ hx
  have hdvalO : ∀ x, x ≠ v →
      dval (setNode m v { vinf with dist := some (du + 1) }) x = dval m x := by
    intro x hx
    unfold dval
    rw [hdO x hx]
  have hdvalv : dval (setNode m v { vinf with dist := some (du + 1) }) v = du + 1 := by
    unfold dval
    rw [hdv']
    rfl
  refine ⟨?_, ?_, ?_, ?_, ?_, ?_, ?_, ?_, ?_, ?_, ?_, ?_⟩
  · exact sameGraph_setNode hI.sameGraph hlv rfl rfl
  · intro w d hw
    by_cases hwv : w = v
    · subst hwv
      rw [hdv'] at hw
      cases hw
      exact hreach
    · rw [hdO w hwv] at hw
      exact hI.sound w d hw
  · intro w hw
    by_cases hwv : w = v
    · subst hwv
      rw [hvv'] at hw
      cases hw
    · rw [hvO w hwv] at hw
      obtain ⟨d, h1, h2, h3⟩ := hI.visMin w hw
      exact ⟨d, by rw [hdO w hwv]; exact h1, h2, h3⟩
  · intro x hx
    rcases List.mem_append.mp hx with h | h
    · rw [hdO x (hneq x h)]
      exact hI.qDist x h
    · rw [List.mem_singleton.mp h, hdv']
      rfl
  · intro q1 x q2 w q3 heq hx hw hvx hvw
    have heq2 : q ++ [v] = (q1 ++ x :: q2) ++ w :: q3 := by
      rw [heq]
    rcases append_singleton_cases heq2 with ⟨hb, hwv, hq⟩ | ⟨q3', hb, hq⟩
    · have hxq : x ∈ q := by
        rw [hq]
        simp
      have hxv : x ≠ v := hneq x hxq
      rw [hwv, hdvalO x hxv, hdvalv]
      have hvxm : visOf m x = false := by
        rw [← hvO x hxv]
        exact hvx
      exact (hI.band x hxq hvxm).2
    · have hxq : x ∈ q := by
        rw [hq]
        simp
      have hwq : w ∈ q := by
        rw [hq]
        simp
      have hxv : x ≠ v := hneq x hxq
      have hwv2 : w ≠ v := hneq w hwq
      rw [hdvalO x hxv, hdvalO w hwv2]
      exact hI.qOrd q1 x q2 w q3' (by rw [hq]) hx hw
        (by rw [← hvO x hxv]; exact hvx) (by rw [← hvO w hwv2]; exact hvw)
  · intro x hx w hw hvx hvw
    rcases List.mem_append.mp hx with hx1 | hx1
    · have hxv : x ≠ v := hneq x hx1
      have hvxm : visOf m x = false := by
        rw [← hvO x hxv]
        exact hvx
      rw [hdvalO x hxv]
      rcases List.mem_append.mp hw with hw1 | hw1
      · have hwv2 : w ≠ v := hneq w hw1
        rw [hdvalO w hwv2]
        exact hI.spread x hx1 w hw1 hvxm (by rw [← hvO w hwv2]; exact hvw)
      · rw [List.mem_singleton.mp hw1, hdvalv]
        have := (hI.band x hx1 hvxm).2
        omega
    · rw [List.mem_singleton.mp hx1, hdvalv]
      rcases List.mem_append.mp hw with hw1 | hw1
      · have hwv2 : w ≠ v := hneq w hw1
        rw [hdvalO w hwv2]
        have hvwm : visOf m w = false := by
          rw [← hvO w hwv2]
          exact hvw
        have := (hI.band w hw1 hvwm).1
        omega
      · rw [List.mem_singleton.mp hw1, hdvalv]
        omega
  · intro w hw
    by_cases hwv : w = v
    · subst hwv
      exact Or.inr (List.mem_append_right _ (by simp))
    · rw [hdO w hwv] at hw
      rcases hI.distInQ w hw with h | h
      · exact Or.inl (by rw [hvO w hwv]; exact h)
      · exact Or.inr (List.mem_append_left _ h)
  · intro x infx hvx hxu hlx w hw
    have hxv : x ≠ v := by
      intro h
      rw [h, hvv'] at hvx
      cases hvx
    rw [hvO x hxv] at hvx
    obtain ⟨h1, h2, h3⟩ := hI.visClosed x infx hvx hxu hlx w hw
    have hwv2 : w ≠ v := by
      intro h
      rw [h, hdOfv] at h1
      cases h1
    refine ⟨by rw [hdO w hwv2]; exact h1, ?_, ?_⟩
    · rw [hdvalO w hwv2, hdvalO x hxv]
      exact h2
    · rcases h3 with h | h
      · exact Or.inl (by rw [hvO w hwv2]; exact h)
      · exact Or.inr (List.mem_append_left _ h)
  · intro w inf hlw hrw
    have h0 := hI.roots w inf hlw hrw
    have hwv2 : w ≠ v := by
      intro h
      rw [h, hdOfv] at h0
      cases h0
    rw [hdO w hwv2]
    exact h0
  · intro x hx hvx
    rcases List.mem_append.mp hx with h | h
    · have hxv : x ≠ v := hneq x h
      rw [hdvalO x hxv]
      rw [hvO x hxv] at hvx
      exact hI.band x h hvx
    · rw [List.mem_singleton.mp h, hdvalv]
      omega
  · rw [hvO u0 hu0v]
    exact hI.uVis
  · rw [hdO u0 hu0v]
    exact hI.uDist

theorem sameGraph_isSome {m0 m : NodeMap} (h : SameGraph m0 m) (u : Label) :
    (lookupNode m u).isSome = (lookupNode m0 u).isSome := by
  have h2 := h u
  cases hl : lookupNode m u <;> cases hl0 : lookupNode m0 u <;>
    rw [hl, hl0] at h2 <;> simp_all

/-- Inner-loop preservation: relaxing the neighbours of the node being
visited keeps the mid-loop invariant; afterwards every relaxed neighbour
has a set distance at most `du + 1` and is visited or queued. -/
theorem relax_midinv (m0 : NodeMap) (u0 : Label) (du : Nat) :
    ∀ (vs : List Label) (m : NodeMap) (q : List Label),
    MidInv m0 u0 du m q →
    (∀ v ∈ vs, (lookupNode m0 v).isSome = true) →
    (∀ v ∈ vs, reachN m0 (du + 1) v) →
    MidInv m0 u0 du (relaxNeighbors du vs m q).1 (relaxNeighbors du vs m q).2 ∧
    ∀ v ∈ vs, ∃ d, dOf (relaxNeighbors du vs m q).1 v = some d ∧ d ≤ du + 1 ∧
      (visOf (relaxNeighbors du vs m q).1 v = true ∨ v ∈ (relaxNeighbors du vs m q).2) := by
  intro vs
  induction vs with
  | nil =>
    intro m q hI _ _
    constructor
    · simp only [relaxNeighbors]
      exact hI
    · simp
  | cons v vs ih =>
    intro m q hI hsome hreach
    have hvm : (lookupNode m v).isSome = true := by
      rw [sameGraph_isSome hI.sameGraph]
      exact hsome v (List.mem_cons_self _ _)
    obtain ⟨vinf, hlv⟩ := Option.isSome_iff_exists.mp hvm
    have hg : getOrInsert m v = (vinf, m) := by
      unfold getOrInsert
      rw [hlv]
    have hsome2 : ∀ w ∈ vs, (lookupNode m0 w).isSome = true :=
      fun w hw => hsome w (List.mem_cons_of_mem _ hw)
    have hreach2 : ∀ w ∈ vs, reachN m0 (du + 1) w :=
      fun w hw => hreach w (List.mem_cons_of_mem _ hw)
    by_cases hvis : vinf.visited
    · have hvv : visOf m v = true := by
        unfold visOf
        simp only [hlv]
        exact hvis
      obtain ⟨d, hdOf, hre, hmin⟩ := hI.visMin v hvv
      have hdle : d ≤ du + 1 := hmin (du + 1) (hreach v (List.mem_cons_self _ _))
      have hrec := ih m q hI hsome2 hreach2
      simp only [relaxNeighbors, hg]
      rw [if_pos hvis]
      refine ⟨hrec.1, ?_⟩
      intro w hw
      rcases List.mem_cons.mp hw with hw1 | hw1
      · subst hw1
        refine ⟨d, relax_dOf_mono du vs m q w d hdOf hdle, hdle, Or.inl ?_⟩
        rw [relax_visOf]
        exact hvv
      · exact hrec.2 w hw1
    · have hvv : visOf m v = false := by
        unfold visOf
        simp only [hlv]
        exact Bool.eq_false_iff.mpr hvis
      simp only [relaxNeighbors, hg]
      rw [if_neg hvis]
      rcases hvd : vinf.dist with _ | dv
      · simp only
        have hI2 := midinv_push_fresh hI hlv (Bool.eq_false_iff.mpr hvis) hvd
          (hreach v (List.mem_cons_self _ _))
        have hrec := ih (setNode m v { vinf with dist := some (du + 1) }) (q ++ [v]) hI2
          hsome2 hreach2
        refine ⟨hrec.1, ?_⟩
        intro w hw
        rcases List.mem_cons.mp hw with hw1 | hw1
        · subst hw1
          refine ⟨du + 1, ?_, le_refl _, Or.inr ?_⟩
          · exact relax_dOf_mono du vs _ _ w (du + 1) (by rw [dOf_setNode_self]) (le_refl _)
          · exact relax_queue_extends du vs _ _ w (by simp)
        · exact hrec.2 w hw1
      · have hdOfv : dOf m v = some dv := by
          unfold dOf
          simp only [hlv]
          exact hvd
        have hvq : v ∈ q := by
          rcases hI.distInQ v (by simp [hdOfv]) with h | h
          · rw [hvv] at h
            cases h
          · exact h
        have hband := hI.band v hvq hvv
        have hdvalv : dval m v = dv := by
          unfold dval
          rw [hdOfv]
          rfl
        rw [hdvalv] at hband
        have hlt : ¬ du + 1 < dv := by omega
        simp only
        rw [if_neg hlt, setNode_self_eq hlv]
        have hI2 := midinv_push_stale hI hvq
        have hrec := ih m (q ++ [v]) hI2 hsome2 hreach2
        refine ⟨hrec.1, ?_⟩
        intro w hw
        rcases List.mem_cons.mp hw with hw1 | hw1
        · subst hw1
          refine ⟨dv, relax_dOf_mono du vs m (q ++ [w]) w dv hdOfv hband.2, hband.2, Or.inr ?_⟩
          exact relax_queue_extends du vs _ _ w (by simp)
        · exact hrec.2 w hw1

theorem bfsLoop_nil (m : NodeMap) : bfsLoop m [] = m := by
  rw [bfsLoop]

theorem bfsLoop_cons_visited (m : NodeMap) (u : Label) (q3 : List Label) (uinf : VertexInfo)
    (m1 : NodeMap) (hg : getOrInsert m u = (uinf, m1)) (hv : uinf.visited = true) :
    bfsLoop m (u :: q3) = bfsLoop m1 q3 := by
  rw [bfsLoop]
  split
  rename_i uinf2 m2 heq
  rw [hg] at heq
  injection heq with h1 h2
  subst h1 h2
  rw [dif_pos hv]

theorem bfsLoop_cons_unvisited (m : NodeMap) (u : Label) (q3 : List Label) (uinf : VertexInfo)
    (m1 m3 : NodeMap) (q2 : List Label) (hg : getOrInsert m u = (uinf, m1))
    (hv : ¬ uinf.visited = true)
    (hr : relaxNeighbors (uinf.dist.getD 0) uinf.adj
      (setNode m1 u { uinf with visited := true }) q3 = (m3, q2)) :
    bfsLoop m (u :: q3) = bfsLoop m3 q2 := by
  rw [bfsLoop]
  split
  rename_i uinf2 m2 heq
  rw [hg] at heq
  injection heq with h1 h2
  subst h1 h2
  rw [dif_neg hv]
  split
  rename_i m4 q4 heq2
  rw [hr] at heq2
  injection heq2 with h3 h4
  rw [h3, h4]

/-- Popping an already-visited head preserves the outer invariant. -/
theorem bfsinv_pop_visited {m0 m : NodeMap} {u : Label} {q3 : List Label}
    (inv : BfsInv m0 m (u :: q3)) (hvu : visOf m u = true) : BfsInv m0 m q3 := by
  refine ⟨inv.sameGraph, inv.sound, inv.visMin, ?_, ?_, ?_, ?_, ?_, inv.roots⟩
  · intro x hx
    exact inv.qDist x (List.mem_cons_of_mem _ hx)
  · intro q1 x q2 w q4 heq hx hw hvx hvw
    have hxu : x ≠ u := by
      intro h
      rw [h, hvu] at hvx
      cases hvx
    have hwu : w ≠ u := by
      intro h
      rw [h, hvu] at hvw
      cases hvw
    refine inv.qOrd (u :: q1) x q2 w q4 (by simp [heq]) ?_ ?_ hvx hvw
    · simp only [List.mem_cons]
      rintro (h | h)
      · exact hxu h
      · exact hx h
    · simp only [List.cons_append, List.mem_cons]
      rintro (h | h)
      · exact hwu h
      · exact hw h
  · intro x hx w hw hvx hvw
    exact inv.spread x (List.mem_cons_of_mem _ hx) w (List.mem_cons_of_mem _ hw) hvx hvw
  · intro x hx
    rcases inv.distInQ x hx with h | h
    · exact Or.inl h
    · rcases List.mem_cons.mp h with h1 | h1
      · rw [h1]
        exact Or.inl hvu
      · exact Or.inr h1
  · intro x infx hvx hlx w hw
    obtain ⟨h1, h2, h3⟩ := inv.visClosed x infx hvx hlx w hw
    refine ⟨h1, h2, ?_⟩
    rcases h3 with h | h
    · exact Or.inl h
    · rcases List.mem_cons.mp h with h4 | h4
      · rw [h4]
        exact Or.inl hvu
      · exact Or.inr h4

/-- Marking the unvisited head as visited turns the outer invariant into
the mid-loop invariant (before its neighbours are relaxed). -/
theorem midinv_establish {m0 m : NodeMap} {u : Label} {q3 : List Label} {uinf : VertexInfo}
    {du : Nat} (inv : BfsInv m0 m (u :: q3)) (hvu : visOf m u = false)
    (hlu : lookupNode m u = some uinf) (hdu : uinf.dist = some du) :
    MidInv m0 u du (setNode m u { uinf with visited := true }) q3 := by
  have hdOfu : dOf m u = some du := by
    unfold dOf
    simp only [hlu]
    exact hdu
  have hdA : ∀ x, dOf (setNode m u { uinf with visited := true }) x = dOf m x := by
    intro x
    by_cases hxu : x = u
    · subst hxu
      simp [dOf, lookupNode_setNode_self, hlu]
    · exact dOf_setNode_other m u x _ hxu
  have hdvalA : ∀ x, dval (setNode m u { uinf with visited := true }) x = dval m x := by
    intro x
    unfold dval
    rw [hdA]
  have hvisu2 : visOf (setNode m u { uinf with visited := true }) u = true := by
    rw [visOf_setNode_self]
  have hvisO : ∀ x, x ≠ u → visOf (setNode m u { uinf with visited := true }) x = visOf m x :=
    fun x hx => visOf_setNode_other m u x _ hx
  refine ⟨?_, ?_, ?_, ?_, ?_, ?_, ?_, ?_, ?_, ?_, hvisu2, ?_⟩
  · exact sameGraph_setNode inv.sameGraph hlu rfl rfl
  · intro w d hw
    rw [hdA] at hw
    exact inv.sound w d hw
  · intro w hw
    by_cases hwu : w = u
    · subst hwu
      exact ⟨du, by rw [hdA]; exact hdOfu, inv.sound w du hdOfu, head_min inv hvu hdOfu⟩
    · rw [hvisO w hwu] at hw
      obtain ⟨d, h1, h2, h3⟩ := inv.visMin w hw
      exact ⟨d, by rw [hdA]; exact h1, h2, h3⟩
  · intro x hx
    rw [hdA]
    exact inv.qDist x (List.mem_cons_of_mem _ hx)
  · intro q1 x q2 w q4 heq hx hw hvx hvw
    have hxu : x ≠ u := by
      intro h
      rw [h, hvisu2] at hvx
      cases hvx
    have hwu : w ≠ u := by
      intro h
      rw [h, hvisu2] at hvw
      cases hvw
    rw [hvisO x hxu] at hvx
    rw [hvisO w hwu] at hvw
    rw [hdvalA, hdvalA]
    refine inv.qOrd (u :: q1) x q2 w q4 (by simp [heq]) ?_ ?_ hvx hvw
    · simp only [List.mem_cons]
      rintro (h | h)
      · exact hxu h
      · exact hx h
    · simp only [List.cons_append, List.mem_cons]
      rintro (h | h)
      · exact hwu h
      · exact hw h
  · intro x hx w hw hvx hvw
    have hxu : x ≠ u := by
      intro h
      rw [h, hvisu2] at hvx
      cases hvx
    have hwu : w ≠ u := by
      intro h
      rw [h, hvisu2] at hvw
      cases hvw
    rw [hvisO x hxu] at hvx
    rw [hvisO w hwu] at hvw
    rw [hdvalA, hdvalA]
    exact inv.spread x (List.mem_cons_of_mem _ hx) w (List.mem_cons_of_mem _ hw) hvx hvw
  · intro x hx
    rw [hdA] at hx
    rcases inv.distInQ x hx with h | h
    · left
      have hxu : x ≠ u := by
        intro heq2
        rw [heq2, hvu] at h
        cases h
      rw [hvisO x hxu]
      exact h
    · rcases List.mem_cons.mp h with h1 | h1
      · rw [h1]
        exact Or.inl hvisu2
      · exact Or.inr h1
  · intro x infx hvx hxu hlx w hw
    rw [hvisO x hxu] at hvx
    obtain ⟨h1, h2, h3⟩ := inv.visClosed x infx hvx hlx w hw
    refine ⟨by rw [hdA]; exact h1, by rw [hdvalA, hdvalA]; exact h2, ?_⟩
    rcases h3 with h | h
    · left
      have hwu : w ≠ u := by
        intro heq2
        rw [heq2, hvu] at h
        cases h
      rw [hvisO w hwu]
      exact h
    · rcases List.mem_cons.mp h with h1 | h1
      · rw [h1]
        exact Or.inl hvisu2
      · exact Or.inr h1
  · intro w inf hlw hrw
    rw [hdA]
    exact inv.roots w inf hlw hrw
  · intro x hx hvx
    have hxu : x ≠ u := by
      intro h
      rw [h, hvisu2] at hvx
      cases hvx
    rw [hvisO x hxu] at hvx
    rw [hdvalA]
    exact pop_range inv hvu hdOfu x hx hvx
  · rw [hdA]
    exact hdOfu

/-- Once the relaxed neighbours of the exempted node satisfy the closure
clause, the mid-loop invariant again yields the outer invariant. -/
theorem midinv_to_bfsinv {m0 : NodeMap} {u0 : Label} {du : Nat} {m : NodeMap} {q : List Label}
    (hI : MidInv m0 u0 du m q)
    (hcl : ∀ infx, lookupNode m0 u0 = some infx → ∀ v ∈ infx.adj,
      ∃ d, dOf m v = some d ∧ d ≤ du + 1 ∧ (visOf m v = true ∨ v ∈ q)) :
    BfsInv m0 m q := by
  refine ⟨hI.sameGraph, hI.sound, hI.visMin, hI.qDist, hI.qOrd, hI.spread, hI.distInQ, ?_,
    hI.roots⟩
  intro x infx hvx hlx w hw
  by_cases hxu : x = u0
  · subst hxu
    obtain ⟨d, h1, h2, h3⟩ := hcl infx hlx w hw
    have hdw : dval m w = d := by
      simp [dval, h1]
    have hdx : dval m x = du := by
      simp [dval, hI.uDist]
    refine ⟨by simp [h1], ?_, h3⟩
    rw [hdw, hdx]
    omega
  · exact hI.visClosed x infx hvx hxu hlx w hw

/-- The `while q` loop preserves the outer invariant down to the empty
queue. -/
theorem bfsLoop_inv (m0 : NodeMap) (hC : Closed m0) :
    ∀ (m : NodeMap) (q : List Label), BfsInv m0 m q → BfsInv m0 (bfsLoop m q) [] := by
  intro m q
  induction m, q using bfsLoop.induct with
  | case1 m =>
    intro hI
    rw [bfsLoop_nil]
    exact hI
  | case2 m u q3 uinf m1 hg hv ih =>
    intro hI
    have hqd := hI.qDist u (List.mem_cons_self _ _)
    obtain ⟨inf2, hl2⟩ := dOf_isSome_lookup hqd
    have hg2 : getOrInsert m u = (inf2, m) := by
      unfold getOrInsert
      rw [hl2]
    rw [hg2] at hg
    injection hg with h1 h2
    subst h1 h2
    rw [bfsLoop_cons_visited m u q3 inf2 m hg2 hv]
    refine ih (bfsinv_pop_visited hI ?_)
    unfold visOf
    simp only [hl2]
    exact hv
  | case3 m u q3 uinf m1 hg hv m3 q2 hr ih =>
    intro hI
    have hqd := hI.qDist u (List.mem_cons_self _ _)
    obtain ⟨inf2, hl2⟩ := dOf_isSome_lookup hqd
    have hg2 : getOrInsert m u = (inf2, m) := by
      unfold getOrInsert
      rw [hl2]
    rw [hg2] at hg
    injection hg with h1 h2
    subst h1 h2
    have hvu : visOf m u = false := by
      unfold visOf
      simp only [hl2]
      exact Bool.eq_false_iff.mpr hv
    have hds : (inf2.dist).isSome = true := by
      have h4 := hqd
      unfold dOf at h4
      simp only [hl2] at h4
      exact h4
    obtain ⟨du, hdu⟩ := Option.isSome_iff_exists.mp hds
    have hdOfu : dOf m u = some du := by
      unfold dOf
      simp only [hl2]
      exact hdu
    have hMid := midinv_establish hI hvu hl2 hdu
    obtain ⟨p0, hl0, hadj0⟩ : ∃ inf0, lookupNode m0 u = some inf0 ∧ inf0.adj = inf2.adj := by
      have h2 := hI.sameGraph u
      rw [hl2] at h2
      rcases hl0 : lookupNode m0 u with _ | inf0
      · rw [hl0] at h2
        simp at h2
      · rw [hl0] at h2
        refine ⟨inf0, rfl, ?_⟩
        simp only [Option.map_some'] at h2
        have h3 := Option.some.inj h2
        exact (congrArg Prod.fst h3).symm
    have hsome : ∀ v ∈ inf2.adj, (lookupNode m0 v).isSome = true := by
      intro v hv2
      rw [← hadj0] at hv2
      exact hC u p0 hl0 v hv2
    have hreachu : reachN m0 du u := hI.sound u du hdOfu
    have hreach : ∀ v ∈ inf2.adj, reachN m0 (du + 1) v := by
      intro v hv2
      exact ⟨u, p0, hl0, hreachu, by rw [hadj0]; exact hv2⟩
    have hrel := relax_midinv m0 u du inf2.adj
      (setNode m u { inf2 with visited := true }) q3 hMid hsome hreach
    have hr2 : relaxNeighbors du inf2.adj (setNode m u { inf2 with visited := true }) q3
        = (m3, q2) := by
      rw [hdu] at hr
      simpa [hdu] using hr
    rw [hr2] at hrel
    simp only at hrel
    have hBfs : BfsInv m0 m3 q2 := by
      refine midinv_to_bfsinv hrel.1 ?_
      intro infx hlx w hw
      rw [hl0] at hlx
      have hx := Option.some.inj hlx
      have hw2 : w ∈ inf2.adj := by
        rw [← hadj0, hx]
        exact hw
      exact hrel.2 w hw2
    rw [bfsLoop_cons_unvisited m u q3 inf2 m m3 q2 hg2 hv hr]
    exact ih hBfs

theorem nodeKeys_setNode (m : NodeMap) (u : Label) (inf : VertexInfo) :
    nodeKeys (setNode m u inf)
      = if u ∈ nodeKeys m then nodeKeys m else nodeKeys m ++ [u] := by
  induction m with
  | nil => simp [setNode, nodeKeys]
  | cons hd t ih =>
    obtain ⟨k, v⟩ := hd
    by_cases hk : k = u
    · subst hk
      simp [setNode, nodeKeys]
    · have hku : ¬ u = k := fun h => hk h.symm
      simp only [setNode, hk, if_false, nodeKeys, List.map_cons] at ih ⊢
      rw [ih]
      by_cases hm : u ∈ List.map (fun p => p.1) t
      · simp [hm, hku]
      · simp [hm, hku]

theorem nodupKeys_setNode {m : NodeMap} (hN : NodupKeys m) (u : Label) (inf : VertexInfo) :
    NodupKeys (setNode m u inf) := by
  unfold NodupKeys
  rw [nodeKeys_setNode]
  by_cases hm : u ∈ nodeKeys m
  · rw [if_pos hm]
    exact hN
  · rw [if_neg hm]
    simp [List.nodup_append, hN, hm]

theorem nodupKeys_getOrInsert {m : NodeMap} (hN : NodupKeys m) (u : Label) :
    NodupKeys (getOrInsert m u).2 := by
  unfold getOrInsert
  rcases hl : lookupNode m u with _ | inf
  · have hm : u ∉ nodeKeys m := (lookupNode_none_iff m u).mp hl
    unfold nodeKeys at hm
    unfold NodupKeys nodeKeys
    simp only [List.map_append, List.map_cons, List.map_nil]
    rw [List.nodup_append]
    refine ⟨hN, List.nodup_singleton u, ?_⟩
    intro a ha hb
    rw [List.mem_singleton] at hb
    subst hb
    exact hm ha
  · exact hN

theorem nodupKeys_addEdge {m : NodeMap} (hN : NodupKeys m) (u v : Label) :
    NodupKeys (addEdge m u v) := by
  unfold addEdge
  rcases hg : getOrInsert m u with ⟨uinf, n1⟩
  simp only
  rcases hg2 : getOrInsert (setNode n1 u { uinf with adj := uinf.adj ++ [v] }) v with ⟨vinf, n3⟩
  simp only
  have h1 : NodupKeys n1 := by
    have : n1 = (getOrInsert m u).2 := by rw [hg]
    rw [this]
    exact nodupKeys_getOrInsert hN u
  have h2 : NodupKeys (setNode n1 u { uinf with adj := uinf.adj ++ [v] }) :=
    nodupKeys_setNode h1 u _
  have h3 : NodupKeys n3 := by
    have : n3 = (getOrInsert (setNode n1 u { uinf with adj := uinf.adj ++ [v] }) v).2 := by
      rw [hg2]
    rw [this]
    exact nodupKeys_getOrInsert h2 v
  exact nodupKeys_setNode h3 v _

theorem nodupKeys_buildNodesAux : ∀ (edges seen : List (Label × Label)) (m : NodeMap),
    NodupKeys m → NodupKeys (buildNodesAux edges seen m) := by
  intro edges
  induction edges with
  | nil => intro seen m hN; simpa [buildNodesAux] using hN
  | cons e rest ih =>
    intro seen m hN
    by_cases he : e ∈ seen
    · simp only [buildNodesAux, if_pos he]
      exact ih seen m hN
    · simp only [buildNodesAux, if_neg he]
      exact ih (e :: seen) _ (nodupKeys_addEdge hN e.1 e.2)

theorem buildNodes_nodupKeys (edges : List (Label × Label)) : NodupKeys (buildNodes edges) := by
  unfold buildNodes
  exact nodupKeys_buildNodesAux edges [] [] (by simp [NodupKeys, nodeKeys])

theorem buildNodes_fresh (edges : List (Label × Label)) : Fresh (buildNodes edges) := by
  intro u inf hl
  have h2 := (buildNodesAux_char edges [] [] u).2
  rw [show buildNodesAux edges [] [] = buildNodes edges from rfl] at h2
  have h3 : infAt (buildNodes edges) u = inf := by
    simp [infAt, hl]
  rw [h3] at h2
  rw [h2]
  exact ⟨rfl, rfl⟩

theorem buildNodes_closed (edges : List (Label × Label)) : Closed (buildNodes edges) := by
  intro u inf hl v hv
  have h2 := (buildNodesAux_char edges [] [] u).2
  rw [show buildNodesAux edges [] [] = buildNodes edges from rfl] at h2
  have h3 : infAt (buildNodes edges) u = inf := by
    simp [infAt, hl]
  rw [h3] at h2
  have hadj : inf.adj = adjSpec u (dedupEdges edges []) := by
    rw [h2]
    rfl
  rw [hadj] at hv
  have hD : (u, v) ∈ dedupEdges edges [] := (mem_adjSpec u v (dedupEdges edges [])).mp hv
  have h4 := (buildNodesAux_char edges [] [] v).1
  rw [show buildNodesAux edges [] [] = buildNodes edges from rfl] at h4
  have h5 : (dedupEdges edges []).any (fun e => e.1 == v || e.2 == v) = true := by
    rw [List.any_eq_true]
    exact ⟨(u, v), hD, by simp⟩
  have h6 : memNode (buildNodes edges) v = true := by
    rw [h4, h5]
    simp
  unfold memNode at h6
  exact h6

theorem bfs_inv (m : NodeMap) (hC : Closed m) (hF : Fresh m) (hN : NodupKeys m) :
    BfsInv m (bfs m) [] := by
  have h := bfsLoop_inv m hC (bfsInit m).1 (bfsInit m).2 (bfsInit_inv m hF hN)
  have he : bfs m = bfsLoop (bfsInit m).1 (bfsInit m).2 := rfl
  rw [he]
  exact h

/-- With an empty queue, every reachable node has been visited. -/
theorem bfs_final_visited {m0 m : NodeMap} (hI : BfsInv m0 m []) :
    ∀ k u, reachN m0 k u → visOf m u = true := by
  intro k
  induction k with
  | zero =>
    intro u hu
    obtain ⟨inf, hl, hr⟩ := hu
    have hd0 := hI.roots u inf hl hr
    rcases hI.distInQ u (by simp [hd0]) with h | h
    · exact h
    · cases h
  | succ k ih =>
    intro u hu
    obtain ⟨x, infx, hlx, hrx, hadj⟩ := hu
    have hvx := ih x hrx
    obtain ⟨h1, h2, h3⟩ := hI.visClosed x infx hvx hlx u hadj
    rcases h3 with h | h
    · exact h
    · cases h

/-- C2: after the DistanceAnalyzer (`bfs`) runs on a mapping constructed by
the GraphBuilder, every node with empty backward adjacency has distance
exactly `0`; every node reachable from the root set along forward adjacency
has its distance equal to the minimum number of forward hops from any root;
and every node not reachable from any root keeps an unset distance. -/
theorem bfs_distances_correct (edges : List (Label × Label)) :
    (∀ u inf, lookupNode (buildNodes edges) u = some inf → inf.radj = [] →
      dOf (bfs (buildNodes edges)) u = some 0) ∧
    (∀ u k, reachN (buildNodes edges) k u →
      ∃ d, dOf (bfs (buildNodes edges)) u = some d ∧ reachN (buildNodes edges) d u ∧
        ∀ j, reachN (buildNodes edges) j u → d ≤ j) ∧
    (∀ u, (∀ k, ¬ reachN (buildNodes edges) k u) →
      dOf (bfs (buildNodes edges)) u = none) := by
  have hI := bfs_inv (buildNodes edges) (buildNodes_closed edges) (buildNodes_fresh edges)
    (buildNodes_nodupKeys edges)
  refine ⟨?_, ?_, ?_⟩
  · intro u inf hl hr
    exact hI.roots u inf hl hr
  · intro u k hk
    exact hI.visMin u (bfs_final_visited hI k u hk)
  · intro u hn
    rcases hd : dOf (bfs (buildNodes edges)) u with _ | d
    · rfl
    · exact absurd (hI.sound u d hd) (hn d)

theorem bfs_distances_correct_witness :
    reachN (buildNodes [("A", "B"), ("B", "C")]) 2 "C" ∧
    (∃ d, dOf (bfs (buildNodes [("A", "B"), ("B", "C")])) "C" = some d ∧
      reachN (buildNodes [("A", "B"), ("B", "C")]) d "C" ∧
      ∀ j, reachN (buildNodes [("A", "B"), ("B", "C")]) j "C" → d ≤ j) ∧
    dOf (bfs (buildNodes [("A", "B"), ("B", "C")])) "A" = some 0 := by
  have reach0A : reachN (buildNodes [("A", "B"), ("B", "C")]) 0 "A" :=
    ⟨⟨["B"], [], none, false⟩, by decide, rfl⟩
  have reach1B : reachN (buildNodes [("A", "B"), ("B", "C")]) 1 "B" :=
    ⟨"A", ⟨["B"], [], none, false⟩, by decide, reach0A, by decide⟩
  have reach2C : reachN (buildNodes [("A", "B"), ("B", "C")]) 2 "C" :=
    ⟨"B", ⟨["C"], ["A"], none, false⟩, by decide, reach1B, by decide⟩
  exact ⟨reach2C, (bfs_distances_correct [("A", "B"), ("B", "C")]).2.1 "C" 2 reach2C,
    (bfs_distances_correct [("A", "B"), ("B", "C")]).1 "A" ⟨["B"], [], none, false⟩
      (by decide) rfl⟩
